import Mathlib

/-
Verification of the Datasage dataset-profiling pipeline.

This file gives a shallow embedding, in Lean 4, of the parts of the
backend pipeline that the specification talks about:

  * `ColumnNormalizer.run`     (backend/app/pipeline/steps/normalizer.py)
  * `SchemaAnalyzer.run`       (backend/app/pipeline/steps/schema_analyzer.py)
  * `TypeFixer.run`            (backend/app/pipeline/steps/type_fixer.py)
  * `MissingValueHandler.run`  (backend/app/pipeline/steps/missing_handler.py)
  * `DuplicateDetector.run`    (backend/app/pipeline/steps/duplicate_detector.py)
  * `OutlierDetector.run`      (backend/app/pipeline/steps/outlier_detector.py)
  * `generate_json_summary`    (backend/app/eda/summarizer.py)
  * `DatasetLoader.load`       (backend/app/pipeline/loader.py)
  * domain profiles            (backend/app/core/domain_profiles.py)

Machine floats are modelled by rationals, pandas missing values by
`Option`, pandas dataframes by explicit lists of typed columns (or of
rows, for the duplicate detector, which only looks at whole rows).
External library behaviour that the Python code merely calls out to
(datetime parsing, numeric literal parsing, the scipy normality test,
runtime exceptions raised inside numpy) is threaded through as explicit
function parameters, so every theorem quantifies over it.
The eager (pandas) execution path is embedded; the Dask path is
embedded where a claim mentions it (the duplicate detector).
-/

/-! ## Shared data model -/

/-- A single (non-null) cell value: a number or a string.  Pandas cells
that hold booleans after a boolean coercion are represented as numbers
0/1, which is also how pandas treats them arithmetically. -/
inductive Val where
  | vNum (q : ℚ)
  | vStr (s : String)
deriving DecidableEq

/-- A structured log entry, mirroring the dict literals the steps append
to their `logs` list (step_name / action / column_name / severity). -/
structure LogEntry where
  step : String
  action : String
  column : String
  severity : String
deriving DecidableEq

/-- Dataset-level warnings appended to `context.warnings` (or returned in
`StepResult.warnings`).  The Python code builds formatted strings; the
embedding keeps the structured payload of each message instead of the
formatted text. -/
inductive PWarning where
  | highMissing (col : String)
  | constantCol (col : String)
  | dupRows (count : ℕ) (total : ℕ)
  | healthAge (col : String)
  | healthNeg (col : String)
  | finNeg (col : String)
  | eduRange (col : String)
  | outlierSkip (col : String) (reason : String)
  | typefixDatetime (col : String)
deriving DecidableEq

/-- Pandas dtypes the steps branch on. -/
inductive Dtype where
  | tInt
  | tFloat
  | tObject
  | tDatetime
  | tBool
deriving DecidableEq

/-- `pd.api.types.is_numeric_dtype` (true for int, float and bool). -/
def isNumericDtype : Dtype → Bool
  | .tInt => true
  | .tFloat => true
  | .tBool => true
  | _ => false

/-- `pd.api.types.is_integer_dtype`. -/
def isIntegerDtype : Dtype → Bool
  | .tInt => true
  | _ => false

/-- `pd.api.types.is_object_dtype`. -/
def isObjectDtype : Dtype → Bool
  | .tObject => true
  | _ => false

/-- `pd.api.types.is_datetime64_any_dtype`. -/
def isDatetimeDtype : Dtype → Bool
  | .tDatetime => true
  | _ => false

/-- `pd.api.types.is_bool_dtype`. -/
def isBoolDtype : Dtype → Bool
  | .tBool => true
  | _ => false

/-! ## Character-level helpers (ASCII model of the Python string ops) -/

/-- The character class `[a-z0-9]` of `re.sub(r'[^a-z0-9]', '_', s)`. -/
def keepChar (c : Char) : Bool :=
  (97 ≤ c.toNat && c.toNat ≤ 122) || (48 ≤ c.toNat && c.toNat ≤ 57)

/-- ASCII decimal digit, as in `str.isdigit` on the first character. -/
def isDigitCh (c : Char) : Bool :=
  48 ≤ c.toNat && c.toNat ≤ 57

/-- The whitespace characters removed by Python `str.strip()`. -/
def isSpaceCh (c : Char) : Bool :=
  c.toNat == 32 || c.toNat == 9 || c.toNat == 10 ||
  c.toNat == 13 || c.toNat == 11 || c.toNat == 12

/-- ASCII model of Python `str.lower` applied to one character. -/
def pyLowerCh (c : Char) : Char :=
  if 65 ≤ c.toNat && c.toNat ≤ 90 then Char.ofNat (c.toNat + 32) else c

/-- `str.lower()` on a whole string. -/
def pyLower (s : String) : String :=
  String.mk (s.data.map pyLowerCh)

/-- `str.strip()` on a character list. -/
def stripWS (cs : List Char) : List Char :=
  ((cs.dropWhile isSpaceCh).reverse.dropWhile isSpaceCh).reverse

/-- `str.strip()` on a string. -/
def pyStrip (s : String) : String :=
  String.mk (stripWS s.data)

/-- Does `pat` occur at the start of `cs` (Python `str.startswith`)? -/
def startsWithCh : List Char → List Char → Bool
  | [], _ => true
  | _ :: _, [] => false
  | p :: ps, c :: cs => p == c && startsWithCh ps cs

/-- Does `pat` occur anywhere in `cs` (Python `pat in s`)? -/
def hasSubList (pat : List Char) : List Char → Bool
  | [] => pat.isEmpty
  | c :: cs => startsWithCh pat (c :: cs) || hasSubList pat cs

/-- Python substring test `pat in s`. -/
def hasSub (s pat : String) : Bool :=
  hasSubList pat.data s.data

/-! ## Column Normalizer (normalizer.py) -/

/-- `re.sub(r'[^a-z0-9]', '_', s)`: replace every character outside
`[a-z0-9]` with an underscore. -/
def subSpecial (cs : List Char) : List Char :=
  cs.map (fun c => if keepChar c then c else '_')

/-- `re.sub(r'_+', '_', s)`: collapse every run of underscores to one
(keep a character unless it is an underscore followed by another). -/
def collapseUnders : List Char → List Char
  | [] => []
  | [c] => [c]
  | a :: b :: rest =>
    if a == '_' && b == '_' then collapseUnders (b :: rest)
    else a :: collapseUnders (b :: rest)

/-- `str.strip('_')`: drop leading and trailing underscores. -/
def trimUnders (cs : List Char) : List Char :=
  ((cs.dropWhile (fun d => d == '_')).reverse.dropWhile (fun d => d == '_')).reverse

/-- `if n_col and n_col[0].isdigit(): n_col = f"col_{n_col}"`. -/
def guardDigit : List Char → List Char
  | [] => []
  | c :: rest =>
    if isDigitCh c then 'c' :: 'o' :: 'l' :: '_' :: c :: rest else c :: rest

/-- The per-name normalization of `ColumnNormalizer.run` (the body of the
loop before de-duplication), on a character list. -/
def normalizeChars (cs : List Char) : List Char :=
  let n1 := subSpecial (stripWS (cs.map pyLowerCh))
  let n2 := guardDigit (trimUnders (collapseUnders n1))
  if n2.isEmpty then "unnamed".data else n2

/-- The per-name normalization of `ColumnNormalizer.run` on a string. -/
def normalizeName (s : String) : String :=
  String.mk (normalizeChars s.data)

/-- The decimal digit character for a digit value. -/
def digitCh (d : ℕ) : Char :=
  if d = 0 then '0' else if d = 1 then '1' else if d = 2 then '2'
  else if d = 3 then '3' else if d = 4 then '4' else if d = 5 then '5'
  else if d = 6 then '6' else if d = 7 then '7' else if d = 8 then '8'
  else '9'

/-- Decimal digits of a natural number, accumulator style, with a fuel
argument (`fuel ≥ n` always suffices, since `n / 10` shrinks). -/
def natDigitsAux : ℕ → ℕ → List Char → List Char
  | 0, _, acc => acc
  | fuel + 1, n, acc =>
    if n = 0 then acc
    else natDigitsAux fuel (n / 10) (digitCh (n % 10) :: acc)

/-- Decimal rendering of a counter, as in the f-string `f"{counter}"`. -/
def natStr (n : ℕ) : String :=
  if n = 0 then "0" else String.mk (natDigitsAux n n [])

/-- The collision candidate `f"{n_col}_{counter}"`. -/
def suffixName (base : String) (k : ℕ) : String :=
  base ++ "_" ++ natStr k

/-- The `while f"{n_col}_{counter}" in seen: counter += 1` loop: the
smallest counter, starting at 1, whose candidate is not in `seen`.  A
free counter always exists among `1 .. seen.length + 1`, so the search
over that range reproduces the loop; the fallback branch is
unreachable. -/
def freshCounter (seen : List String) (base : String) : ℕ :=
  match (List.range (seen.length + 1)).find?
      (fun i => !seen.contains (suffixName base (i + 1))) with
  | some i => i + 1
  | none => seen.length + 2

/-- The de-duplication step of the loop: keep the name if unseen,
otherwise append the first free numeric suffix. -/
def dedupName (seen : List String) (base : String) : String :=
  if seen.contains base then suffixName base (freshCounter seen base) else base

/-- One iteration of the loop over `old_cols`: state is
(seen, new_cols, logs). -/
def normStep (acc : List String × List String × List LogEntry) (col : String) :
    List String × List String × List LogEntry :=
  let base := normalizeName col
  let name := dedupName acc.1 base
  let logs :=
    if col ≠ name then
      acc.2.2 ++ [⟨"ColumnNormalizer", "rename_column", col, "info"⟩]
    else acc.2.2
  (acc.1 ++ [name], acc.2.1 ++ [name], logs)

/-- Python `dict(pairs)` lookup with default: later pairs overwrite
earlier ones, and a missing key maps to itself (this is both
`rename_map.get(c, c)` and the semantics of `df.rename(columns=...)`). -/
def dictGet (pairs : List (String × String)) (k : String) : String :=
  match pairs.reverse.find? (fun p => p.1 == k) with
  | some p => p.2
  | none => k

/-- `ColumnNormalizer.run`, at the level of the column-name list: the
output column names and the rename logs.  Note that the rename is
applied through `dict(zip(old_cols, new_cols))`, exactly as in the
source: duplicate old names collapse to a single dictionary entry. -/
def normalizerRun (cols : List String) : List String × List LogEntry :=
  let st := cols.foldl normStep ([], [], [])
  (cols.map (dictGet (cols.zip st.2.1)), st.2.2)

/-! ## Domain profiles (domain_profiles.py) -/

/-- `PIPELINE_ROLE_ALIASES`. -/
def roleAliases : List (String × String) :=
  [("id_col", "id_col"), ("id", "id_col"),
   ("text", "text_col"), ("text_col", "text_col"),
   ("datetime", "datetime_col"), ("datetime_col", "datetime_col"),
   ("feature", "feature_col"), ("feature_col", "feature_col"),
   ("categorical", "feature_col"),
   ("target", "target_col"), ("target_col", "target_col"),
   ("constant", "constant_col"), ("constant_col", "constant_col")]

/-- `to_pipeline_role`: normalize an alias, defaulting to feature_col. -/
def toPipelineRole (role : String) : String :=
  match roleAliases.find? (fun p => p.1 == pyLower (pyStrip role)) with
  | some p => p.2
  | none => "feature_col"

/-- The `known_columns` of the `ai_incidents` profile — the only domain
profile with a non-empty `known_columns` mapping. -/
def aiIncidentKnown : List (String × String) :=
  [("incident_id", "id_col"), ("title", "text"), ("description", "text"),
   ("date", "datetime"), ("year", "feature"),
   ("allegeddeployerofaisystem", "categorical"),
   ("allegeddeveloperofaisystem", "categorical"),
   ("allegedharmedornearlyharmedparties", "categorical"),
   ("allegedharmedornearlyharmeddparties", "categorical"),
   ("harm_type", "categorical"), ("sector_of_deployment", "categorical"),
   ("technology_purveyor", "categorical"), ("ai_system", "categorical")]

/-- `get_domain_profile(domain)["known_columns"]`: every profile except
`ai_incidents` (and the `general` fallback) has an empty mapping. -/
def knownColumnsFor (domain : String) : List (String × String) :=
  if pyLower (pyStrip domain) == "ai_incidents" then aiIncidentKnown else []

/-! ## Schema Analyzer (schema_analyzer.py) -/

/-- A dataframe column: its label, its pandas dtype, and its cells
(`none` = a missing value). -/
structure PCol where
  name : String
  dtype : Dtype
  cells : List (Option Val)
deriving DecidableEq

/-- Non-null cells, in order (`Series.dropna`). -/
def nonNull (cells : List (Option Val)) : List Val :=
  cells.filterMap id

/-- `Series.nunique()`: number of distinct non-null values. -/
def nuniqueOf (cells : List (Option Val)) : ℕ :=
  (nonNull cells).dedup.length

/-- `"id" in col.lower() or "key" in col.lower() or "uuid" in col.lower()`. -/
def idLikeName (name : String) : Bool :=
  hasSub (pyLower name) "id" || hasSub (pyLower name) "key" ||
    hasSub (pyLower name) "uuid"

/-- `str(x)` on a cell value, for the `astype(str)` calls. -/
def valStr : Val → String
  | .vNum q => toString q
  | .vStr s => s

/-- The fraction of non-null sampled values that `pd.to_datetime(...,
errors='coerce')` parses; the parser itself is external and passed in.
An empty series yields a NaN mean in pandas, which fails the `> 0.80`
comparison exactly as `0` does here. -/
def dtParseFrac (parseOk : Val → Bool) (cells : List (Option Val)) : ℚ :=
  let nn := nonNull cells
  if nn.isEmpty then 0 else ((nn.countP parseOk : ℚ) / (nn.length : ℚ))

/-- `sample_df[col].dropna().astype(str).str.len().mean()`; again an
empty series gives NaN in pandas, which fails `> 50` exactly as `0`. -/
def avgStrLen (cells : List (Option Val)) : ℚ :=
  let nn := nonNull cells
  if nn.isEmpty then 0
  else (((nn.map (fun v => (valStr v).length)).sum : ℚ) / (nn.length : ℚ))

/-- The heuristic role decision of `SchemaAnalyzer.run` for one column
(the code path taken when the domain profile has no entry for it).
Returns the role together with the constant-column warning flag. -/
def assignRole (parseOk : Val → Bool) (col : PCol) : String × Bool :=
  let nu := nuniqueOf col.cells
  if nu == 1 then ("constant_col", true)
  else if ((nu : ℚ) / (col.cells.length : ℚ)) > 95 / 100 then
    (if idLikeName col.name || isIntegerDtype col.dtype then ("id_col", false)
     else ("feature_col", false))
  else if isObjectDtype col.dtype then
    (if dtParseFrac parseOk col.cells > 80 / 100 then ("datetime_col", false)
     else if avgStrLen col.cells > 50 then ("text_col", false)
     else ("feature_col", false))
  else if isDatetimeDtype col.dtype then ("datetime_col", false)
  else ("feature_col", false)

/-- Python dict assignment `m[k] = v`: overwrite in place or append. -/
def dictSet (m : List (String × String)) (k v : String) :
    List (String × String) :=
  if m.any (fun p => p.1 == k) then
    m.map (fun p => if p.1 == k then (k, v) else p)
  else m ++ [(k, v)]

/-- The full role decision for one column, including the domain-profile
override of `known_columns`. -/
def analyzeColumn (parseOk : Val → Bool) (domain : String) (col : PCol) :
    String × Bool :=
  match (knownColumnsFor domain).find? (fun p => p.1 == col.name) with
  | some p => (toPipelineRole p.2, false)
  | none => assignRole parseOk col

/-- One iteration of the `SchemaAnalyzer.run` loop: record the role in
`context.schema`, append the `role_assignment` log entry, and append
the constant-column warning when raised. -/
def schemaStep (parseOk : Val → Bool) (domain : String)
    (acc : List (String × String) × List LogEntry × List PWarning)
    (col : PCol) :
    List (String × String) × List LogEntry × List PWarning :=
  let r := analyzeColumn parseOk domain col
  (dictSet acc.1 col.name r.1,
   acc.2.1 ++ [⟨"SchemaAnalyzer", "role_assignment", col.name, "info"⟩],
   if r.2 then acc.2.2 ++ [PWarning.constantCol col.name] else acc.2.2)

/-- `SchemaAnalyzer.run` (eager path, where the sample is the whole
frame): threads `context.schema` and `context.warnings`, producing the
updated schema, the logs and the updated warnings. -/
def schemaAnalyzerRun (parseOk : Val → Bool) (domain : String)
    (schema0 : List (String × String)) (warnings0 : List PWarning)
    (cols : List PCol) :
    List (String × String) × List LogEntry × List PWarning :=
  cols.foldl (schemaStep parseOk domain) (schema0, [], warnings0)

/-! ## Type Fixer (type_fixer.py) -/

/-- `df[col].apply(lambda x: str(x).strip() if isinstance(x, str) else x)`. -/
def stripCell : Option Val → Option Val
  | some (.vStr s) => some (.vStr (pyStrip s))
  | oc => oc

/-- `pd.to_numeric(..., errors='coerce')` on one cell; the numeric
literal parser is external (passed as `parseNum`). -/
def cellNum (parseNum : String → Option ℚ) : Val → Option ℚ
  | .vNum q => some q
  | .vStr s => parseNum s

/-- The `bool_map` of `TypeFixer.run`. -/
def boolMapLookup (s : String) : Option Bool :=
  (([("yes", true), ("no", false), ("true", true), ("false", false),
     ("1", true), ("0", false), ("1.0", true), ("0.0", false)] :
      List (String × Bool)).find? (fun p => p.1 == s)).map (fun p => p.2)

/-- The tokens allowed by the boolean-subset test: the `bool_map` keys
plus the null-like tokens. -/
def boolTokens : List String :=
  ["yes", "no", "true", "false", "1", "0", "1.0", "0.0",
   "nan", "null", "none", ""]

/-- `df[col].astype(str).str.lower().map(bool_map)` on one cell: a null
cell renders as the string `nan`, which is not a `bool_map` key, so it
stays null; an unmapped token becomes null. -/
def mapBoolCell : Option Val → Option Val
  | none => none
  | some v =>
    (boolMapLookup (pyLower (valStr v))).map
      (fun b => Val.vNum (if b then 1 else 0))

/-- `context.schema.get(col)`. -/
def schemaGet (schema : List (String × String)) (k : String) : Option String :=
  (schema.find? (fun p => p.1 == k)).map (fun p => p.2)

/-- The whitespace-stripped cells of an object column. -/
def tfStripped (col : PCol) : List (Option Val) :=
  col.cells.map stripCell

/-- `df[col].dropna().head(1000)` taken on the stripped column. -/
def tfSample (col : PCol) : List Val :=
  (nonNull (tfStripped col)).take 1000

/-- `pd.to_numeric(sample, errors='coerce').notna().mean()`. -/
def tfNumFrac (parseNum : String → Option ℚ) (col : PCol) : ℚ :=
  ((tfSample col).countP (fun v => (cellNum parseNum v).isSome) : ℚ) /
    ((tfSample col).length : ℚ)

/-- `set(sample.astype(str).str.lower().unique())` is a subset of the
boolean vocabulary plus null-like tokens. -/
def tfBoolSubset (col : PCol) : Bool :=
  ((tfSample col).map (fun v => pyLower (valStr v))).dedup.all
    (fun s => boolTokens.contains s)

/-- The body of the `TypeFixer.run` loop for one column (eager path):
returns the updated column, the log entries, the warnings and the
`modified` entries for it.  The numeric and boolean branches append a
log entry and the column name to `modified`; the datetime branch logs
nothing — on success it only appends to `modified`, and if
`pd.to_datetime` raises (the external oracle `exc` reports an
exception for the column) it only appends a warning.  The datetime
coercion `pd.to_datetime(..., errors='coerce')` itself is external and
passed in as `dtCoerce`. -/
def typeFixerCol (parseNum : String → Option ℚ) (dtCoerce : Val → Option Val)
    (exc : String → Option String) (schema : List (String × String))
    (col : PCol) : PCol × List LogEntry × List PWarning × List String :=
  if !isObjectDtype col.dtype then (col, [], [], [])
  else if (tfSample col).isEmpty then
    ({ col with cells := tfStripped col }, [], [], [])
  else if tfNumFrac parseNum col > 95 / 100 && tfNumFrac parseNum col < 1 then
    ({ name := col.name, dtype := .tFloat,
       cells := (tfStripped col).map
         (fun oc => (oc.bind (cellNum parseNum)).map Val.vNum) },
     [⟨"TypeFixer", "coerce_numeric", col.name, "info"⟩], [], [col.name])
  else if tfBoolSubset col then
    ({ name := col.name, dtype := .tBool,
       cells := (tfStripped col).map mapBoolCell },
     [⟨"TypeFixer", "coerce_boolean", col.name, "info"⟩], [], [col.name])
  else if schemaGet schema col.name == some "datetime_col" then
    match exc col.name with
    | none =>
      ({ name := col.name, dtype := .tDatetime,
         cells := (tfStripped col).map (fun oc => oc.bind dtCoerce) },
       [], [], [col.name])
    | some _ =>
      ({ col with cells := tfStripped col }, [],
       [.typefixDatetime col.name], [])
  else ({ col with cells := tfStripped col }, [], [], [])

/-- `TypeFixer.run` over the whole frame (eager path). -/
def typeFixerRun (parseNum : String → Option ℚ) (dtCoerce : Val → Option Val)
    (exc : String → Option String) (schema : List (String × String))
    (cols : List PCol) :
    List PCol × List LogEntry × List PWarning × List String :=
  cols.foldl
    (fun acc col =>
      let r := typeFixerCol parseNum dtCoerce exc schema col
      (acc.1 ++ [r.1], acc.2.1 ++ r.2.1, acc.2.2.1 ++ r.2.2.1,
       acc.2.2.2 ++ r.2.2.2))
    ([], [], [], [])

/-! ## Missing Value Handler (missing_handler.py) -/

/-- `df.isnull().sum()` for one column. -/
def countNone (cells : List (Option Val)) : ℕ :=
  cells.countP (fun oc => oc.isNone)

/-- The numeric content of a cell value. -/
def valNum : Val → Option ℚ
  | .vNum q => some q
  | _ => none

/-- Ascending sort of a rational list. -/
def sortRat (l : List ℚ) : List ℚ :=
  l.mergeSort (fun a b => decide (a ≤ b))

/-- `Series.median()` (pandas: midpoint of the two central order
statistics for an even count, `NaN` for an empty series). -/
def medianOf (l : List ℚ) : Option ℚ :=
  let s := sortRat l
  let n := s.length
  if n = 0 then none
  else if n % 2 = 1 then some (s.getD (n / 2) 0)
  else some ((s.getD (n / 2 - 1) 0 + s.getD (n / 2) 0) / 2)

/-- Ordering used by `Series.mode()` to sort the modal values. -/
def valLE : Val → Val → Bool
  | .vNum a, .vNum b => decide (a ≤ b)
  | .vStr a, .vStr b => decide (a ≤ b)
  | .vNum _, .vStr _ => true
  | .vStr _, .vNum _ => false

/-- `Series.mode().iloc[0]`: the smallest among the most frequent
non-null values (`none` for an empty value set). -/
def modeOf (l : List Val) : Option Val :=
  let cands := l.dedup
  let maxCt := (cands.map (fun v => l.count v)).foldl max 0
  (cands.filter (fun v => l.count v == maxCt)).foldl
    (fun acc v =>
      match acc with
      | none => some v
      | some w => if valLE v w then some v else some w)
    none

/-- `Series.ffill()`: carry the last non-null value forward. -/
def ffillAux : List (Option Val) → Option Val → List (Option Val)
  | [], _ => []
  | oc :: rest, last =>
    match oc with
    | some v => some v :: ffillAux rest (some v)
    | none => last :: ffillAux rest last

/-- `Series.ffill()` from an all-null history. -/
def ffillCells (cells : List (Option Val)) : List (Option Val) :=
  ffillAux cells none

/-- `Series.fillna(v)`; filling with `NaN` (`none`) is a no-op. -/
def fillNa (fv : Option Val) (cells : List (Option Val)) : List (Option Val) :=
  match fv with
  | none => cells
  | some v => cells.map (fun oc => some (oc.getD v))

/-- `len(df)`: the row count of the frame (the length of its first
column; the theorems assume a rectangular frame where they need it). -/
def tableRows (cols : List PCol) : ℕ :=
  match cols with
  | [] => 0
  | c :: _ => c.cells.length

/-- The fill-method / fill-value selection of `MissingValueHandler.run`
for one column. -/
def mvhMethod (schema : List (String × String)) (col : PCol) :
    String × Option Val :=
  let role := (schemaGet schema col.name).getD "feature_col"
  if isNumericDtype col.dtype && role ≠ "id_col" then
    ("median", (medianOf ((nonNull col.cells).filterMap valNum)).map Val.vNum)
  else if role == "datetime_col" || isDatetimeDtype col.dtype then
    ("ffill", none)
  else
    ("mode", some ((modeOf (nonNull col.cells)).getD (Val.vStr "Missing")))

/-- The `MissingValueHandler.run` loop body for one column: the updated
column, the optional indicator column, the log entries and the warnings. -/
def mvhCol (schema : List (String × String)) (total : ℕ) (col : PCol) :
    PCol × Option PCol × List LogEntry × List PWarning :=
  let count := countNone col.cells
  if count == 0 then (col, none, [], [])
  else
    let p : ℚ := (count : ℚ) / (total : ℚ)
    if p > 30 / 100 then (col, none, [], [PWarning.highMissing col.name])
    else
      let mf := mvhMethod schema col
      let ind : Option PCol :=
        if p ≥ 5 / 100 then
          some ⟨col.name ++ "_was_missing", .tInt,
            col.cells.map (fun oc => some (.vNum (if oc.isNone then 1 else 0)))⟩
        else none
      let indLogs : List LogEntry :=
        if p ≥ 5 / 100 then
          [⟨"MissingHandler", "add_indicator", col.name, "info"⟩]
        else []
      let newCells :=
        if mf.1 == "ffill" then ffillCells col.cells else fillNa mf.2 col.cells
      ({ col with cells := newCells }, ind,
       indLogs ++ [⟨"MissingHandler", "impute", col.name, "info"⟩], [])

/-- `MissingValueHandler.run` (eager path).  The null counts are taken
before the loop runs, so freshly added indicator columns are not
themselves processed; pandas appends each new indicator column after all
existing columns. -/
def missingHandlerRun (schema : List (String × String)) (cols : List PCol) :
    List PCol × List LogEntry × List PWarning :=
  let total := tableRows cols
  if total == 0 then (cols, [], [])
  else
    (cols.map (fun col => (mvhCol schema total col).1) ++
       cols.filterMap (fun col => (mvhCol schema total col).2.1),
     (cols.map (fun col => (mvhCol schema total col).2.2.1)).flatten,
     (cols.map (fun col => (mvhCol schema total col).2.2.2)).flatten)

/-! ## Duplicate Detector (duplicate_detector.py) -/

/-- A dataframe row, for the whole-row comparison of `df.duplicated()`
(pandas treats two missing values as equal there). -/
abbrev Row := List (Option Val)

/-- `df.duplicated().sum()`: the number of rows equal to some earlier
row (every occurrence after the first is counted). -/
def dupCountAux : List Row → List Row → ℕ
  | _, [] => 0
  | seen, r :: rest =>
    (if seen.contains r then 1 else 0) + dupCountAux (r :: seen) rest

/-- `df.duplicated().sum()` over a frame given as its row list. -/
def dupCount (rows : List Row) : ℕ :=
  dupCountAux [] rows

/-- `DuplicateDetector.run`: on the Dask engine the body is `pass` (the
count is skipped); on the eager engine a warning and a log entry are
emitted exactly when at least one exact duplicate exists.  The rows are
returned untouched in every case. -/
def duplicateDetectorRun (isDask : Bool) (rows : List Row) :
    List Row × List LogEntry × List PWarning :=
  if isDask then (rows, [], [])
  else
    let c := dupCount rows
    if c > 0 then
      (rows, [⟨"DuplicateDetector", "flag_duplicates", "", "warning"⟩],
       [PWarning.dupRows c rows.length])
    else (rows, [], [])

/-! ## Outlier Detector (outlier_detector.py) -/

/-- Sum of a rational list. -/
def listSumQ (l : List ℚ) : ℚ :=
  l.foldl (· + ·) 0

/-- Arithmetic mean. -/
def meanQ (l : List ℚ) : ℚ :=
  listSumQ l / (l.length : ℚ)

/-- Population variance (`ddof = 0`, as in `scipy.stats.zscore`). -/
def varQ (l : List ℚ) : ℚ :=
  listSumQ (l.map (fun x => (x - meanQ l) ^ 2)) / (l.length : ℚ)

/-- `Series.quantile(q)` with pandas' default linear interpolation
between order statistics. -/
def quantileQ (l : List ℚ) (q : ℚ) : ℚ :=
  let s := sortRat l
  let h := q * ((s.length : ℚ) - 1)
  let lo := (Int.floor h).toNat
  let frac := h - (lo : ℚ)
  let x := s.getD lo 0
  let y := s.getD (lo + 1) x
  x + frac * (y - x)

/-- The Z-score rule `abs(stats.zscore(series)) > 3.5`, stated without
the square root: `|x - mean| / std > 3.5  ↔  (x - mean)² > 3.5² · var`
(for zero variance both sides reject every point, matching the NaN
comparisons in numpy). -/
def zOutCount (l : List ℚ) : ℕ :=
  l.countP (fun x => decide ((x - meanQ l) ^ 2 > (49 / 4) * varQ l))

/-- The Tukey rule with 3·IQR fences. -/
def iqrOutCount (l : List ℚ) : ℕ :=
  let q1 := quantileQ l (1 / 4)
  let q3 := quantileQ l (3 / 4)
  let iqr := q3 - q1
  l.countP (fun x => decide (x < q1 - 3 * iqr ∨ x > q3 + 3 * iqr))

/-- The domain-specific sanity checks of `OutlierDetector.run`. -/
def domainWarnings (domain : String) (name : String) (series : List ℚ) :
    List PWarning :=
  if domain == "healthcare" then
    (if hasSub (pyLower name) "age" && series.any (fun x => decide (x > 120))
     then [PWarning.healthAge name] else []) ++
    (if series.any (fun x => decide (x < 0)) &&
        (["pressure", "weight", "height"].any
          (fun k => hasSub (pyLower name) k))
     then [PWarning.healthNeg name] else [])
  else if domain == "finance" then
    (if series.any (fun x => decide (x < 0)) &&
        (["price", "volume", "amount"].any (fun k => hasSub (pyLower name) k))
     then [PWarning.finNeg name] else [])
  else if domain == "education" then
    (if (hasSub (pyLower name) "grade" || hasSub (pyLower name) "score") &&
        (series.any (fun x => decide (x > 100)) ||
         series.any (fun x => decide (x < 0)))
     then [PWarning.eduRange name] else [])
  else []

/-- The `OutlierDetector.run` body for one column when no exception is
raised.  `pOracle` is the external normality test (`shapiro` /
`normaltest`); `none` models the inner `except` that sets the p-value
to 0. -/
def outlierAnalyzeCol (pOracle : List ℚ → Option ℚ) (domain : String)
    (schema : List (String × String)) (col : PCol) :
    List LogEntry × List PWarning :=
  if !isNumericDtype col.dtype || isBoolDtype col.dtype then ([], [])
  else if schemaGet schema col.name == some "id_col" ||
      schemaGet schema col.name == some "datetime_col" then ([], [])
  else
    let series := (nonNull col.cells).filterMap valNum
    if series.length < 10 then ([], [])
    else
      let warns := domainWarnings domain col.name series
      let pVal := (pOracle series).getD 0
      let outCt := if pVal > 5 / 100 then zOutCount series
                   else iqrOutCount series
      if outCt > 0 then
        ([⟨"OutlierDetector", "flag_outliers", col.name,
           if (outCt : ℚ) / (series.length : ℚ) > 5 / 100 then "warning"
           else "info"⟩], warns)
      else ([], warns)

/-- The per-column outcome of `OutlierDetector.run`, including the
`except Exception` handler modelled by `exc`: when the runtime raises
for a column, the column is skipped with a `skip_column` log entry and
a warning. -/
def outlierColOutput (pOracle : List ℚ → Option ℚ)
    (exc : String → Option String) (domain : String)
    (schema : List (String × String)) (col : PCol) :
    List LogEntry × List PWarning :=
  match exc col.name with
  | some e =>
    ([⟨"OutlierDetector", "skip_column", col.name, "warning"⟩],
     [PWarning.outlierSkip col.name e])
  | none => outlierAnalyzeCol pOracle domain schema col

/-- `OutlierDetector.run` (eager path): the frame itself is returned
untouched in every case, only logs and warnings accumulate. -/
def outlierDetectorRun (pOracle : List ℚ → Option ℚ)
    (exc : String → Option String) (domain : String)
    (schema : List (String × String)) (cols : List PCol) :
    List PCol × List LogEntry × List PWarning :=
  let res := cols.foldl
    (fun acc col =>
      let r := outlierColOutput pOracle exc domain schema col
      (acc.1 ++ r.1, acc.2 ++ r.2))
    (([] : List LogEntry), ([] : List PWarning))
  (cols, res.1, res.2)

/-! ## Summarizer quality score (summarizer.py) -/

/-- The per-column quantities that feed the quality score: the dtype
class of the branch taken, whether the outlier computation ran
(`len(series) > 10`), and the null/outlier fractions. -/
structure ColStat where
  isNumeric : Bool
  bigSeries : Bool
  nullFrac : ℚ
  outlierFrac : ℚ
deriving DecidableEq

/-- The stats `generate_json_summary` derives for one column on the
eager path (`sample_df = df`): `null_pct = null_count / total_rows`
(0 for an empty frame), and `outlier_pct` from the 3·IQR rule when the
column sits in the numeric branch with more than 10 valid values. -/
def colStatOf (total : ℕ) (col : PCol) : ColStat :=
  let nullFrac : ℚ := if total == 0 then 0
                      else (countNone col.cells : ℚ) / (total : ℚ)
  if isNumericDtype col.dtype && !isBoolDtype col.dtype then
    let series := (nonNull col.cells).filterMap valNum
    if series.length > 10 then
      ⟨true, true, nullFrac, (iqrOutCount series : ℚ) / (series.length : ℚ)⟩
    else ⟨true, false, nullFrac, 0⟩
  else ⟨false, false, nullFrac, 0⟩

/-- The penalty the summarizer loop accumulates for one column:
`min(10, outlier_pct * 100)` in the guarded numeric branch, plus
`null_pct * 50` for every column. -/
def colPenalty (st : ColStat) : ℚ :=
  (if st.isNumeric && st.bigSeries then min 10 (st.outlierFrac * 100) else 0) +
    st.nullFrac * 50

/-- The accumulated `quality_penalty`. -/
def totalPenalty (stats : List ColStat) : ℚ :=
  (stats.map colPenalty).sum

/-- Python `round(x, 1)` (round to one decimal place; Python rounds
exact halves to even, Mathlib's `round` rounds them up — the two agree
off ties, and no theorem below depends on a tie). -/
def round1 (x : ℚ) : ℚ :=
  ((round (10 * x) : ℤ) : ℚ) / 10

/-- `score = max(0.0, 100.0 - quality_penalty)` followed by
`round(score, 1)`. -/
def scoreFromStats (stats : List ColStat) : ℚ :=
  round1 (max 0 (100 - totalPenalty stats))

/-- `dataset_quality_score` as produced by `generate_json_summary` on
the eager path. -/
def datasetQualityScore (cols : List PCol) : ℚ :=
  scoreFromStats (cols.map (colStatOf (tableRows cols)))

/-- The score formula exactly as the claim words it (no rounding):
100 minus the numeric-column outlier penalties minus the null
penalties, floored at 0.  Kept separate from the embedding of the code
so the two can be compared. -/
def claimScoreFormula (stats : List ColStat) : ℚ :=
  max 0 (100 -
    (stats.map (fun st =>
      if st.isNumeric then min 10 (st.outlierFrac * 100) else 0)).sum -
    (stats.map (fun st => st.nullFrac * 50)).sum)

/-! ## Loader (loader.py) -/

/-- The shape of a successfully parsed frame. -/
structure LoadShape where
  rows : ℕ
  cols : ℕ
deriving DecidableEq

/-- Outcome of the first read attempt inside the `try` of
`DatasetLoader.load`: a parsed frame, a `UnicodeDecodeError`, a
`MemoryError`, any other reader exception, or no reader at all (an
unrecognized format leaves `df = None`). -/
inductive ReadResult where
  | ok (t : LoadShape)
  | raiseUnicode
  | raiseMemory
  | raiseOther (msg : String)
  | noReader
deriving DecidableEq

/-- Outcome of the fallback read performed inside an `except` handler
(the latin-1 retry, or the Dask retry after a `MemoryError`). -/
inductive FallbackResult where
  | ok (t : LoadShape)
  | raiseErr (msg : String)
deriving DecidableEq

/-- What `DatasetLoader.load` does, as seen by the caller. -/
inductive LoadOutcome where
  | success (t : LoadShape)
  | loadError (msg : String)
  | validationError (msg : String)
  | uncaught (msg : String)
deriving DecidableEq

/-- The post-`try` validation: `df is None or len(df.columns) == 0`
raises a `ValidationError`, then `row_count == 0` raises a
`ValidationError`. -/
def validateLoaded : Option LoadShape → LoadOutcome
  | none => .validationError "Dataset is empty or format unrecognized."
  | some t =>
    if t.cols == 0 then
      .validationError "Dataset is empty or format unrecognized."
    else if t.rows == 0 then .validationError "File contains no rows."
    else .success t

/-- The control flow of `DatasetLoader.load`: a generic reader
exception is wrapped in `DatasetLoadError`; a `UnicodeDecodeError` or
`MemoryError` triggers a fallback read *inside* the handler, whose own
exception propagates unwrapped. -/
def loaderLoad (first : ReadResult) (fallback : FallbackResult) :
    LoadOutcome :=
  match first with
  | .ok t => validateLoaded (some t)
  | .noReader => validateLoaded none
  | .raiseOther m => .loadError m
  | .raiseUnicode =>
    match fallback with
    | .ok t => validateLoaded (some t)
    | .raiseErr m => .uncaught m
  | .raiseMemory =>
    match fallback with
    | .ok t => validateLoaded (some t)
    | .raiseErr m => .uncaught m

/-- Did `load` raise `DatasetLoadError`? -/
def isLoadFailure : LoadOutcome → Bool
  | .loadError _ => true
  | _ => false

/-- Did `load` raise `ValidationError`? -/
def isValidationFailure : LoadOutcome → Bool
  | .validationError _ => true
  | _ => false

/-! ## Normal forms of column names -/

/-- No two adjacent underscores. -/
def noAdjUnders : List Char → Bool
  | a :: b :: rest => !(a == '_' && b == '_') && noAdjUnders (b :: rest)
  | _ => true

/-- The normalized form that `ColumnNormalizer` actually produces and
leaves untouched: non-empty, over `[a-z0-9_]`, no leading underscore or
digit, no trailing underscore, no run of underscores. -/
def normalChars (cs : List Char) : Bool :=
  match cs with
  | [] => false
  | c :: rest =>
    (c :: rest).all (fun d => keepChar d || d == '_') &&
    !(c == '_') && !isDigitCh c &&
    !((c :: rest).getLast (List.cons_ne_nil c rest) == '_') &&
    noAdjUnders (c :: rest)

/-- `normalChars` on a string. -/
def isNormalName (s : String) : Bool :=
  normalChars s.data

/-- The normalized form exactly as the claim words it: non-empty,
lowercase over `[a-z0-9_]`, not starting with a digit (uniqueness is
stated separately on the list of names). -/
def claimNormalForm (s : String) : Bool :=
  match s.data with
  | [] => false
  | c :: rest =>
    (c :: rest).all (fun d => keepChar d || d == '_') && !isDigitCh c

/-! ## Concrete tables used as witnesses and counterexamples -/

/-- A numeric parser recognising only the literal `1`, used to
instantiate the external `pd.to_numeric` behaviour on witnesses. -/
def parseNumLit (s : String) : Option ℚ :=
  if s == "1" then some 1 else none

/-- Twenty sampled values of which exactly 19 (95%) parse as numeric. -/
def cNum95 : PCol :=
  ⟨"v", .tObject,
    (List.replicate 19 (some (Val.vStr "1"))) ++ [some (Val.vStr "x")]⟩

/-- A fully unique string column whose values all parse as datetimes but
whose name carries no id-like token. -/
def cWhen : PCol :=
  ⟨"when", .tObject,
    [some (.vStr "2024-01-01"), some (.vStr "2024-01-02"),
     some (.vStr "2024-01-03")]⟩

/-- One numeric column with 2 nulls in 5 rows (null fraction 0.4). -/
def mvhHighNullTable : List PCol :=
  [⟨"a", .tFloat,
    [none, none, some (.vNum 1), some (.vNum 2), some (.vNum 3)]⟩]

/-- One numeric column with 1 null in 5 rows (null fraction 0.2). -/
def mvhMidNullTable : List PCol :=
  [⟨"a", .tFloat,
    [none, some (.vNum 1), some (.vNum 2), some (.vNum 3), some (.vNum 8)]⟩]

/-- One object column with 2 nulls in 3 rows, whose exact quality score
100 − (2/3)·50 = 200/3 is not representable at one decimal place. -/
def qsThirdTable : List PCol :=
  [⟨"x", .tObject, [some (.vStr "x"), none, none]⟩]

/-- A healthcare age column with 21 valid values, one of them 150. -/
def ageCol : PCol :=
  ⟨"age", .tFloat,
    ((List.range 20).map (fun i => some (Val.vNum i))) ++ [some (.vNum 150)]⟩

/-- Numeric value of a digit character (proof-side inverse of
`digitCh`). -/
def digitVal (c : Char) : ℕ :=
  c.toNat - 48

/-- Numeric value of a digit string (proof-side inverse of `natStr`). -/
def valD (l : List Char) : ℕ :=
  l.foldl (fun a c => 10 * a + digitVal c) 0

/-- The six pipeline roles named in the data model. -/
def pipelineRoles : List String :=
  ["id_col", "datetime_col", "text_col", "feature_col", "target_col",
   "constant_col"]

/-! ## Theorems -/

/-! ### C7 — Duplicate Detector -/

/-- C7 (counterexample): on the partitioned (Dask) engine the step body
is `pass`: even with an exact duplicate present, no log entry records
the omission (and no warning is emitted), contradicting the claim that
the skip itself is logged. -/
theorem c7_dask_skip_not_logged :
    dupCount [[some (Val.vNum 1)], [some (Val.vNum 1)]] = 1 ∧
    (duplicateDetectorRun true [[some (Val.vNum 1)], [some (Val.vNum 1)]]).2.1
      = [] ∧
    (duplicateDetectorRun true [[some (Val.vNum 1)], [some (Val.vNum 1)]]).2.2
      = [] := by
  decide

/-- C7 (amended): the duplicate detector never changes the rows; on the
Dask engine the duplicate count is skipped silently, producing neither
logs nor warnings; on the eager engine a dataset-level warning carrying
the count and the row total is emitted exactly when at least one exact
full-row duplicate exists. -/
theorem c7_duplicate_detector_advisory (isDask : Bool) (rows : List Row) :
    (duplicateDetectorRun isDask rows).1 = rows ∧
    (isDask = true → (duplicateDetectorRun isDask rows).2.1 = [] ∧
      (duplicateDetectorRun isDask rows).2.2 = []) ∧
    (isDask = false →
      ((duplicateDetectorRun isDask rows).2.2 ≠ [] ↔ 0 < dupCount rows) ∧
      (0 < dupCount rows →
        (duplicateDetectorRun isDask rows).2.2 =
          [PWarning.dupRows (dupCount rows) rows.length])) := by
  cases isDask with
  | true => simp [duplicateDetectorRun]
  | false =>
    simp only [duplicateDetectorRun, Bool.false_eq_true, if_false]
    by_cases h : dupCount rows > 0
    · simp [h]
    · simp [h]

/-- C7 witness: the amended theorem applied on the eager engine to a
two-row frame whose rows coincide. -/
theorem c7_duplicate_detector_advisory_witness :
    (duplicateDetectorRun false [[some (Val.vNum 1)], [some (Val.vNum 1)]]).2.2
      = [PWarning.dupRows 1 2] := by
  have h := c7_duplicate_detector_advisory false
    [[some (Val.vNum 1)], [some (Val.vNum 1)]]
  have hd : dupCount [[some (Val.vNum 1)], [some (Val.vNum 1)]] = 1 := by
    decide
  have := (h.2.2 rfl).2
  rw [hd] at this
  have h2 := this (by omega)
  simpa using h2

/-! ### C6 — Loader error taxonomy -/

/-- C6 (counterexample): a file whose bytes fail the sniffed encoding
(`UnicodeDecodeError`) and whose latin-1 retry then fails inside the
`except` handler propagates the retry's raw exception: the caller sees
neither a `DatasetLoadError` nor a `ValidationError`, so corrupt or
unreadable bytes do not always raise a load failure. -/
theorem c6_retry_exception_unwrapped :
    loaderLoad ReadResult.raiseUnicode (FallbackResult.raiseErr "parser") =
      LoadOutcome.uncaught "parser" ∧
    isLoadFailure
      (loaderLoad ReadResult.raiseUnicode (FallbackResult.raiseErr "parser"))
      = false ∧
    isValidationFailure
      (loaderLoad ReadResult.raiseUnicode (FallbackResult.raiseErr "parser"))
      = false := by
  decide

/-- C6 (amended): a generic reader exception on the first attempt is
wrapped in `DatasetLoadError`; a parsed result with zero columns or
zero rows (or no reader matching the format) raises `ValidationError`;
a successful load always has at least one row and one column; and the
two failure kinds are distinct, so the caller can tell them apart —
except that a failing fallback read (after a decode or memory error)
propagates unwrapped. -/
theorem c6_load_error_taxonomy (first : ReadResult) (fb : FallbackResult) :
    (∀ m, first = ReadResult.raiseOther m →
      loaderLoad first fb = LoadOutcome.loadError m) ∧
    (∀ t, first = ReadResult.ok t → (t.cols = 0 ∨ t.rows = 0) →
      isValidationFailure (loaderLoad first fb) = true) ∧
    (first = ReadResult.noReader →
      isValidationFailure (loaderLoad first fb) = true) ∧
    (∀ t, loaderLoad first fb = LoadOutcome.success t →
      0 < t.cols ∧ 0 < t.rows) ∧
    (∀ o : LoadOutcome,
      ¬(isLoadFailure o = true ∧ isValidationFailure o = true)) := by
  have hval : ∀ ot t, validateLoaded ot = LoadOutcome.success t →
      0 < t.cols ∧ 0 < t.rows := by
    intro ot t h
    match ot with
    | none => simp [validateLoaded] at h
    | some u =>
      simp only [validateLoaded] at h
      by_cases hc : u.cols == 0
      · simp [hc] at h
      · by_cases hr : u.rows == 0
        · simp [hc, hr] at h
        · simp [hc, hr] at h
          subst h
          constructor
          · exact Nat.pos_of_ne_zero (by simpa using hc)
          · exact Nat.pos_of_ne_zero (by simpa using hr)
  refine ⟨?_, ?_, ?_, ?_, ?_⟩
  · intro m hm
    subst hm
    rfl
  · intro t ht hz
    subst ht
    simp only [loaderLoad, validateLoaded]
    rcases hz with hz | hz
    · simp [hz, isValidationFailure]
    · by_cases hc : t.cols == 0
      · simp [hc, isValidationFailure]
      · simp [hc, hz, isValidationFailure]
  · intro h
    subst h
    rfl
  · intro t h
    cases first with
    | ok u => exact hval (some u) t h
    | noReader => exact hval none t h
    | raiseOther m => simp [loaderLoad] at h
    | raiseUnicode =>
      cases fb with
      | ok u => exact hval (some u) t h
      | raiseErr m => simp [loaderLoad] at h
    | raiseMemory =>
      cases fb with
      | ok u => exact hval (some u) t h
      | raiseErr m => simp [loaderLoad] at h
  · intro o ho
    cases o <;> simp [isLoadFailure, isValidationFailure] at ho

/-! ### C2 — Summarizer quality score -/

/-- `round1` is monotone. -/
theorem round1_mono {x y : ℚ} (h : x ≤ y) : round1 x ≤ round1 y := by
  unfold round1
  have h10 : round (10 * x) ≤ round (10 * y) := by
    rw [round_eq, round_eq]
    exact Int.floor_le_floor (by linarith)
  have hc : ((round (10 * x) : ℤ) : ℚ) ≤ ((round (10 * y) : ℤ) : ℚ) := by
    exact_mod_cast h10
  linarith

/-- `round1` fixes 0. -/
theorem round1_zero : round1 0 = 0 := by
  simp [round1]

/-- `round1` fixes 100. -/
theorem round1_hundred : round1 100 = 100 := by
  unfold round1
  have h : (10 : ℚ) * 100 = ((1000 : ℤ) : ℚ) := by norm_num
  rw [h, round_intCast]
  norm_num

/-- The four fields of `colStatOf`, written without nested branches. -/
theorem colStatOf_fields (total : ℕ) (col : PCol) :
    colStatOf total col =
      ⟨isNumericDtype col.dtype && !isBoolDtype col.dtype,
       (isNumericDtype col.dtype && !isBoolDtype col.dtype) &&
         decide (10 < (List.filterMap valNum (nonNull col.cells)).length),
       if total == 0 then 0 else (countNone col.cells : ℚ) / (total : ℚ),
       if (isNumericDtype col.dtype && !isBoolDtype col.dtype) &&
           decide (10 < (List.filterMap valNum (nonNull col.cells)).length)
       then
         (iqrOutCount (List.filterMap valNum (nonNull col.cells)) : ℚ) /
           ((List.filterMap valNum (nonNull col.cells)).length : ℚ)
       else 0⟩ := by
  unfold colStatOf
  by_cases h1 : (isNumericDtype col.dtype && !isBoolDtype col.dtype) = true
  · by_cases h2 : 10 < (List.filterMap valNum (nonNull col.cells)).length
    · simp [h1, h2]
    · simp [h1, h2]
  · rw [Bool.not_eq_true] at h1
    simp [h1]

/-- Null and outlier fractions computed by the summarizer are
nonnegative. -/
theorem colStatOf_nonneg (total : ℕ) (col : PCol) :
    0 ≤ (colStatOf total col).nullFrac ∧
      0 ≤ (colStatOf total col).outlierFrac := by
  rw [colStatOf_fields]
  constructor
  · split_ifs <;> positivity
  · split_ifs <;> positivity

/-- Per column, the penalty the summarizer accumulates agrees with the
claim's formula term for that column: when the outlier computation did
not run the recorded outlier fraction is 0, so the claim's
`min(10, outlier_pct·100)` term vanishes as well. -/
theorem colPenalty_eq_claim (total : ℕ) (col : PCol) :
    colPenalty (colStatOf total col) =
      (if (colStatOf total col).isNumeric then
        min 10 ((colStatOf total col).outlierFrac * 100) else 0) +
      (colStatOf total col).nullFrac * 50 := by
  rw [colStatOf_fields]
  unfold colPenalty
  cases hn : (isNumericDtype col.dtype && !isBoolDtype col.dtype) with
  | false => simp
  | true =>
    cases hd : decide (10 < (List.filterMap valNum (nonNull col.cells)).length)
      with
    | false => simp [min_eq_right (by norm_num : (0:ℚ) ≤ 10)]
    | true => simp

/-- The accumulated penalty splits into the claim's two sums. -/
theorem totalPenalty_map_eq (total : ℕ) (cols : List PCol) :
    totalPenalty (cols.map (colStatOf total)) =
      ((cols.map (colStatOf total)).map (fun st =>
        if st.isNumeric then min 10 (st.outlierFrac * 100) else 0)).sum +
      ((cols.map (colStatOf total)).map (fun st => st.nullFrac * 50)).sum := by
  induction cols with
  | nil => simp [totalPenalty]
  | cons c rest ih =>
    simp only [List.map_cons, List.sum_cons, totalPenalty] at *
    rw [colPenalty_eq_claim]
    linarith

/-- Each column's penalty is nonnegative. -/
theorem colPenalty_nonneg (total : ℕ) (col : PCol) :
    0 ≤ colPenalty (colStatOf total col) := by
  obtain ⟨h1, h2⟩ := colStatOf_nonneg total col
  unfold colPenalty
  have : (0 : ℚ) ≤ (if (colStatOf total col).isNumeric &&
      (colStatOf total col).bigSeries then
        min 10 ((colStatOf total col).outlierFrac * 100) else 0) := by
    split_ifs with h
    · exact le_min (by norm_num) (by positivity)
    · exact le_refl 0
  nlinarith

/-- Penalties grow pointwise with null and outlier fractions. -/
theorem totalPenalty_mono {s1 s2 : List ColStat}
    (h : List.Forall₂ (fun a b : ColStat =>
      a.isNumeric = b.isNumeric ∧ a.bigSeries = b.bigSeries ∧
      a.nullFrac ≤ b.nullFrac ∧ a.outlierFrac ≤ b.outlierFrac) s1 s2) :
    totalPenalty s1 ≤ totalPenalty s2 := by
  induction h with
  | nil => simp [totalPenalty]
  | @cons a b l1 l2 hab _ ih =>
    obtain ⟨hn, hb, hnull, hout⟩ := hab
    simp only [totalPenalty, List.map_cons, List.sum_cons] at *
    have hpen : colPenalty a ≤ colPenalty b := by
      unfold colPenalty
      rw [hn, hb]
      have : (if b.isNumeric && b.bigSeries then
          min 10 (a.outlierFrac * 100) else 0) ≤
          (if b.isNumeric && b.bigSeries then
          min 10 (b.outlierFrac * 100) else 0) := by
        split_ifs with hcond
        · exact min_le_min (le_refl 10) (by linarith)
        · exact le_refl 0
      nlinarith
    linarith

/-- C2 (counterexample): on a 3-row table with a single object column
holding 2 nulls, the exact formula gives 100 − (2/3)·50 = 200/3, but the
summarizer reports `round(200/3, 1) = 66.7`, so the produced score does
not equal the claimed expression. -/
theorem c2_score_rounded_off_formula :
    datasetQualityScore qsThirdTable = 667 / 10 ∧
    claimScoreFormula (qsThirdTable.map (colStatOf (tableRows qsThirdTable)))
      = 200 / 3 ∧
    (667 / 10 : ℚ) ≠ 200 / 3 := by
  have hstat : qsThirdTable.map (colStatOf (tableRows qsThirdTable)) =
      [⟨false, false, 2 / 3, 0⟩] := by
    have hc : countNone [some (Val.vStr "x"), none, none] = 2 := by decide
    simp [qsThirdTable, colStatOf, tableRows, isNumericDtype, hc]
  have hpen : totalPenalty [(⟨false, false, 2 / 3, 0⟩ : ColStat)] = 100 / 3 := by
    simp [totalPenalty, colPenalty]
    norm_num
  refine ⟨?_, ?_, by norm_num⟩
  · unfold datasetQualityScore scoreFromStats
    rw [hstat, hpen]
    rw [show ((100 : ℚ) - 100 / 3) = 200 / 3 by norm_num]
    rw [max_eq_right (by norm_num)]
    unfold round1
    norm_num [round_eq]
  · unfold claimScoreFormula
    rw [hstat]
    simp
    rw [max_eq_right (by norm_num)]
    norm_num

/-- C2 (amended): the produced `dataset_quality_score` equals the
claim's formula *rounded to one decimal place*; it always lies in
[0, 100]; and it is monotonically non-increasing as any column's null
fraction or outlier fraction increases with all else equal. -/
theorem c2_quality_score_bounded_monotone (cols : List PCol)
    (s1 s2 : List ColStat)
    (hmono : List.Forall₂ (fun a b : ColStat =>
      a.isNumeric = b.isNumeric ∧ a.bigSeries = b.bigSeries ∧
      a.nullFrac ≤ b.nullFrac ∧ a.outlierFrac ≤ b.outlierFrac) s1 s2) :
    datasetQualityScore cols =
      round1 (claimScoreFormula (cols.map (colStatOf (tableRows cols)))) ∧
    0 ≤ datasetQualityScore cols ∧ datasetQualityScore cols ≤ 100 ∧
    scoreFromStats s2 ≤ scoreFromStats s1 := by
  refine ⟨?_, ?_, ?_, ?_⟩
  · unfold datasetQualityScore scoreFromStats claimScoreFormula
    rw [totalPenalty_map_eq]
    congr 1
    congr 1
    ring
  · unfold datasetQualityScore scoreFromStats
    have := round1_zero
    calc (0 : ℚ) = round1 0 := round1_zero.symm
    _ ≤ _ := round1_mono (le_max_left 0 _)
  · unfold datasetQualityScore scoreFromStats
    have hpen : 0 ≤ totalPenalty (cols.map (colStatOf (tableRows cols))) := by
      unfold totalPenalty
      apply List.sum_nonneg
      intro x hx
      simp only [List.map_map, List.mem_map] at hx
      obtain ⟨c, _, hc⟩ := hx
      rw [← hc]
      exact colPenalty_nonneg _ _
    calc round1 (max 0 (100 - totalPenalty (cols.map (colStatOf (tableRows cols)))))
        ≤ round1 100 := round1_mono (by
          apply max_le (by norm_num) (by linarith))
    _ = 100 := round1_hundred
  · unfold scoreFromStats
    apply round1_mono
    apply max_le_max (le_refl 0)
    have := totalPenalty_mono hmono
    linarith

/-- C2 witness: the amended theorem at a concrete table and a concrete
pointwise-dominated pair of stat lists. -/
theorem c2_quality_score_bounded_monotone_witness :
    0 ≤ datasetQualityScore qsThirdTable ∧
    datasetQualityScore qsThirdTable ≤ 100 ∧
    scoreFromStats [⟨true, true, 1 / 2, 1 / 10⟩] ≤
      scoreFromStats [⟨true, true, 0, 0⟩] := by
  have h := c2_quality_score_bounded_monotone qsThirdTable
    [⟨true, true, 0, 0⟩] [⟨true, true, 1 / 2, 1 / 10⟩]
    (List.Forall₂.cons
      ⟨rfl, rfl, by norm_num, by norm_num⟩ List.Forall₂.nil)
  exact ⟨h.2.1, h.2.2.1, h.2.2.2⟩

/-- C6 witness: the amended theorem applied to a generic reader failure
with a healthy fallback. -/
theorem c6_load_error_taxonomy_witness :
    loaderLoad (ReadResult.raiseOther "bad bytes") (FallbackResult.ok ⟨1, 1⟩) =
      LoadOutcome.loadError "bad bytes" :=
  (c6_load_error_taxonomy (ReadResult.raiseOther "bad bytes")
    (FallbackResult.ok ⟨1, 1⟩)).1 "bad bytes" rfl

/-! ### C3 — Schema Analyzer decision order -/

/-- C3 (counterexample): a string column named `when`, all of whose
three distinct values parse as datetimes, has uniqueness ratio 1 >
0.95, no id-like name token and a non-integer dtype; the claim says
rule 4 then applies and assigns `datetime_col`, but the analyzer's
`elif` chain stops at the uniqueness test and leaves `feature_col`. -/
theorem c3_high_uniqueness_shadows_rule4 :
    (assignRole (fun _ => true) cWhen).1 = "feature_col" ∧
    idLikeName cWhen.name = false ∧
    isIntegerDtype cWhen.dtype = false ∧
    ((nuniqueOf cWhen.cells : ℚ) / (cWhen.cells.length : ℚ) > 95 / 100) ∧
    dtParseFrac (fun _ => true) cWhen.cells > 80 / 100 ∧
    "feature_col" ≠ "datetime_col" := by
  have hratio :
      ((nuniqueOf cWhen.cells : ℚ) / (cWhen.cells.length : ℚ) > 95 / 100) := by
    rw [show nuniqueOf cWhen.cells = 3 from by decide,
      show cWhen.cells.length = 3 from by decide]
    norm_num
  have hparse : dtParseFrac (fun _ => true) cWhen.cells > 80 / 100 := by
    unfold dtParseFrac
    rw [if_neg (by decide),
      show (nonNull cWhen.cells).countP (fun _ => true) = 3 from by decide,
      show (nonNull cWhen.cells).length = 3 from by decide]
    norm_num
  refine ⟨?_, by decide, by decide, hratio, hparse, by decide⟩
  unfold assignRole
  rw [if_neg (by decide), if_pos hratio, if_neg (by decide)]

/-- C3 (amended): with `nunique ≠ 1`, whenever the uniqueness ratio
exceeds 0.95 the chain stops there — `id_col` when the name is id-like
or the dtype integer, otherwise `feature_col`, never reaching rule 4;
rule 4 (datetime / text / feature for string columns) applies only when
the uniqueness ratio is at most 0.95. -/
theorem c3_decision_order_corrected (parseOk : Val → Bool) (col : PCol)
    (h1 : nuniqueOf col.cells ≠ 1) :
    (((nuniqueOf col.cells : ℚ) / (col.cells.length : ℚ) > 95 / 100) →
      (assignRole parseOk col).1 =
        (if idLikeName col.name || isIntegerDtype col.dtype then "id_col"
         else "feature_col")) ∧
    (¬((nuniqueOf col.cells : ℚ) / (col.cells.length : ℚ) > 95 / 100) →
      isObjectDtype col.dtype = true →
      (assignRole parseOk col).1 =
        (if dtParseFrac parseOk col.cells > 80 / 100 then "datetime_col"
         else if avgStrLen col.cells > 50 then "text_col"
         else "feature_col")) := by
  constructor
  · intro hr
    unfold assignRole
    rw [if_neg (by simpa using h1), if_pos hr]
    split_ifs <;> rfl
  · intro hr hobj
    unfold assignRole
    rw [if_neg (by simpa using h1), if_neg hr, if_pos hobj]
    split_ifs <;> rfl

/-- C3 witness: the amended theorem at the concrete `when` column. -/
theorem c3_decision_order_corrected_witness :
    (assignRole (fun _ => true) cWhen).1 =
      (if idLikeName cWhen.name || isIntegerDtype cWhen.dtype then "id_col"
       else "feature_col") := by
  have h := c3_decision_order_corrected (fun _ => true) cWhen (by decide)
  refine h.1 ?_
  rw [show nuniqueOf cWhen.cells = 3 from by decide,
    show cWhen.cells.length = 3 from by decide]
  norm_num

/-! ### C10 — Schema Analyzer invariant -/

/-- Re-testing a key after a `dictSet` update is the same key test. -/
theorem dictSet_comp (k v k' : String) :
    ((fun q : String × String => q.1 == k') ∘
      (fun p : String × String => if p.1 == k then (k, v) else p)) =
      (fun q : String × String => q.1 == k') := by
  funext q
  simp only [Function.comp_apply]
  by_cases hq : (q.1 == k) = true
  · rw [if_pos hq]
    have hq' : q.1 = k := by simpa using hq
    rw [hq']
  · rw [if_neg hq]

/-- `m[k] = v` makes `m.get(k)` return `v`. -/
theorem schemaGet_dictSet_self (m : List (String × String)) (k v : String) :
    schemaGet (dictSet m k v) k = some v := by
  unfold dictSet
  by_cases h : m.any (fun p => p.1 == k) = true
  · rw [if_pos h]
    unfold schemaGet
    rw [List.find?_map, dictSet_comp]
    obtain ⟨q, hmem, hq⟩ := List.any_eq_true.mp h
    have hs : (m.find? (fun q => q.1 == k)).isSome = true :=
      List.find?_isSome.mpr ⟨q, hmem, hq⟩
    obtain ⟨q0, hq0⟩ := Option.isSome_iff_exists.mp hs
    rw [hq0]
    have hk0 := List.find?_some hq0
    have hk0' : q0.1 = k := by simpa using hk0
    simp [hk0']
  · rw [if_neg h]
    unfold schemaGet
    rw [List.find?_append]
    have hnone : m.find? (fun p => p.1 == k) = none := by
      rw [List.find?_eq_none]
      intro x hx hcx
      exact h (List.any_eq_true.mpr ⟨x, hx, hcx⟩)
    rw [hnone]
    simp

/-- `m[k] = v` leaves every other key's lookup unchanged. -/
theorem schemaGet_dictSet_ne (m : List (String × String)) (k v k' : String)
    (h : k' ≠ k) : schemaGet (dictSet m k v) k' = schemaGet m k' := by
  unfold dictSet
  by_cases ha : m.any (fun p => p.1 == k) = true
  · rw [if_pos ha]
    unfold schemaGet
    rw [List.find?_map, dictSet_comp]
    cases hf : m.find? (fun p => p.1 == k') with
    | none => simp [hf]
    | some q0 =>
      have hq0 := List.find?_some hf
      simp only [] at hq0
      have hq0' : q0.1 = k' := by simpa using hq0
      have hq0k : ¬q0.1 = k := by
        rw [hq0']
        exact h
      simp [hf, hq0k]
  · rw [if_neg ha]
    unfold schemaGet
    rw [List.find?_append]
    cases hf : m.find? (fun p => p.1 == k') with
    | some q0 => simp [hf]
    | none =>
      have : (k == k') = false := beq_eq_false_iff_ne.mpr (fun he => h he.symm)
      simp [hf, this]

/-- Every role alias normalizes into the six pipeline roles. -/
theorem toPipelineRole_mem (s : String) : toPipelineRole s ∈ pipelineRoles := by
  unfold toPipelineRole
  cases hf : roleAliases.find? (fun p => p.1 == pyLower (pyStrip s)) with
  | none => simp [pipelineRoles]
  | some p =>
    have hp : p ∈ roleAliases := List.mem_of_find?_eq_some hf
    simp only [roleAliases] at hp
    fin_cases hp <;> simp [pipelineRoles]

/-- The heuristic decision always lands in the six pipeline roles. -/
theorem assignRole_mem (parseOk : Val → Bool) (col : PCol) :
    (assignRole parseOk col).1 ∈ pipelineRoles := by
  unfold assignRole
  by_cases h1 : (nuniqueOf col.cells == 1) = true
  · simp [h1, pipelineRoles]
  · rw [if_neg h1]
    by_cases h2 : (nuniqueOf col.cells : ℚ) / (col.cells.length : ℚ) > 95 / 100
    · rw [if_pos h2]
      split_ifs <;> simp [pipelineRoles]
    · rw [if_neg h2]
      by_cases h3 : isObjectDtype col.dtype = true
      · rw [if_pos h3]
        split_ifs <;> simp [pipelineRoles]
      · rw [if_neg h3]
        split_ifs <;> simp [pipelineRoles]

/-- The full per-column decision always lands in the six roles. -/
theorem analyzeColumn_mem (parseOk : Val → Bool) (domain : String)
    (col : PCol) : (analyzeColumn parseOk domain col).1 ∈ pipelineRoles := by
  unfold analyzeColumn
  cases hf : (knownColumnsFor domain).find? (fun p => p.1 == col.name) with
  | none => exact assignRole_mem parseOk col
  | some p => exact toPipelineRole_mem p.2

/-- The analyzer loop appends exactly one `role_assignment` log entry
per column, in column order. -/
theorem schemaFold_logs (parseOk : Val → Bool) (domain : String)
    (cols : List PCol) :
    ∀ acc : List (String × String) × List LogEntry × List PWarning,
      (cols.foldl (schemaStep parseOk domain) acc).2.1 =
        acc.2.1 ++ cols.map (fun col =>
          (⟨"SchemaAnalyzer", "role_assignment", col.name, "info"⟩ :
            LogEntry)) := by
  induction cols with
  | nil => intro acc; simp
  | cons c rest ih =>
    intro acc
    simp only [List.foldl_cons, List.map_cons]
    rw [ih]
    simp [schemaStep]

/-- A schema entry that is already one of the six roles survives the
rest of the loop as one of the six roles. -/
theorem schemaFold_get_preserved (parseOk : Val → Bool) (domain : String)
    (cols : List PCol) :
    ∀ (acc : List (String × String) × List LogEntry × List PWarning)
      (n r : String),
      schemaGet acc.1 n = some r → r ∈ pipelineRoles →
      ∃ r2, schemaGet (cols.foldl (schemaStep parseOk domain) acc).1 n
          = some r2 ∧ r2 ∈ pipelineRoles := by
  induction cols with
  | nil => intro acc n r h hr; exact ⟨r, h, hr⟩
  | cons c rest ih =>
    intro acc n r h hr
    simp only [List.foldl_cons]
    by_cases hn : n = c.name
    · refine ih _ n (analyzeColumn parseOk domain c).1 ?_
        (analyzeColumn_mem parseOk domain c)
      show schemaGet
        (dictSet acc.1 c.name (analyzeColumn parseOk domain c).1) n = _
      rw [hn]
      exact schemaGet_dictSet_self acc.1 c.name _
    · refine ih _ n r ?_ hr
      show schemaGet (schemaStep parseOk domain acc c).1 n = some r
      rw [show (schemaStep parseOk domain acc c).1 =
        dictSet acc.1 c.name (analyzeColumn parseOk domain c).1 from rfl]
      rw [schemaGet_dictSet_ne acc.1 c.name _ n hn]
      exact h

/-- Every processed column ends with a schema entry among the six
roles. -/
theorem schemaFold_get_mem (parseOk : Val → Bool) (domain : String)
    (cols : List PCol) :
    ∀ (acc : List (String × String) × List LogEntry × List PWarning)
      (col : PCol), col ∈ cols →
      ∃ r, schemaGet (cols.foldl (schemaStep parseOk domain) acc).1 col.name
          = some r ∧ r ∈ pipelineRoles := by
  induction cols with
  | nil => intro acc col h; simp at h
  | cons c rest ih =>
    intro acc col hmem
    simp only [List.foldl_cons]
    rcases List.mem_cons.mp hmem with rfl | hmem'
    · refine schemaFold_get_preserved parseOk domain rest _ col.name
        (analyzeColumn parseOk domain col).1 ?_
        (analyzeColumn_mem parseOk domain col)
      show schemaGet (schemaStep parseOk domain acc col).1 col.name = _
      simpa [schemaStep] using schemaGet_dictSet_self acc.1 col.name
        (analyzeColumn parseOk domain col).1
    · exact ih _ col hmem'

/-- C10: after `SchemaAnalyzer.run`, the context schema holds an entry
for every column of the input table, the assigned role is one of the
six pipeline roles, and the logs are exactly one `role_assignment`
entry per column in order.  (The nonemptiness hypothesis reflects that
on a zero-row frame the Python division `nunique / len(sample_df)`
would raise instead of completing.) -/
theorem c10_schema_analyzer_invariant (parseOk : Val → Bool)
    (domain : String) (schema0 : List (String × String))
    (w0 : List PWarning) (cols : List PCol)
    (hne : ∀ col ∈ cols, col.cells ≠ []) :
    (∀ col ∈ cols, ∃ role,
      schemaGet (schemaAnalyzerRun parseOk domain schema0 w0 cols).1 col.name
        = some role ∧ role ∈ pipelineRoles) ∧
    (schemaAnalyzerRun parseOk domain schema0 w0 cols).2.1 =
      cols.map (fun col =>
        (⟨"SchemaAnalyzer", "role_assignment", col.name, "info"⟩ :
          LogEntry)) := by
  constructor
  · intro col h
    exact schemaFold_get_mem parseOk domain cols _ col h
  · have h := schemaFold_logs parseOk domain cols (schema0, [], w0)
    simpa [schemaAnalyzerRun] using h

/-- C10 witness: the invariant at a concrete one-column table. -/
theorem c10_schema_analyzer_invariant_witness :
    (∃ role,
      schemaGet (schemaAnalyzerRun (fun _ => false) "general" [] []
        [⟨"x", .tObject, [some (.vStr "a"), some (.vStr "a")]⟩]).1 "x"
        = some role ∧ role ∈ pipelineRoles) ∧
    (schemaAnalyzerRun (fun _ => false) "general" [] []
        [⟨"x", .tObject, [some (.vStr "a"), some (.vStr "a")]⟩]).2.1 =
      [⟨"SchemaAnalyzer", "role_assignment", "x", "info"⟩] := by
  have h := c10_schema_analyzer_invariant (fun _ => false) "general" [] []
    [⟨"x", .tObject, [some (.vStr "a"), some (.vStr "a")]⟩] (by decide)
  exact ⟨h.1 ⟨"x", .tObject, [some (.vStr "a"), some (.vStr "a")]⟩ (by simp),
    by simpa using h.2⟩

/-! ### C5 — Type Fixer thresholds and coercion order -/

/-- C5 (counterexample): a text column whose sample of 20 values has
exactly 19 numeric-coercible entries sits at exactly 95%; the claim
says "at least 95% (but not 100%)" coerces, but the code tests
`valid_num_pct > 0.95`, so nothing is coerced and the column passes
through with only its whitespace strip. -/
theorem c5_exact_95_percent_not_coerced :
    tfNumFrac parseNumLit cNum95 = 95 / 100 ∧
    (95 / 100 : ℚ) ≥ 95 / 100 ∧ (95 / 100 : ℚ) < 1 ∧
    (typeFixerCol parseNumLit (fun _ => none) (fun _ => none) [] cNum95).2.1
      = [] ∧
    (typeFixerCol parseNumLit (fun _ => none) (fun _ => none) [] cNum95).2.2.2
      = [] ∧
    (typeFixerCol parseNumLit (fun _ => none) (fun _ => none) [] cNum95).1
      = cNum95 := by
  have hfrac : tfNumFrac parseNumLit cNum95 = 95 / 100 := by
    unfold tfNumFrac
    rw [show (tfSample cNum95).countP
        (fun v => (cellNum parseNumLit v).isSome) = 19 from by decide,
      show (tfSample cNum95).length = 20 from by decide]
    norm_num
  have hnum : ¬(tfNumFrac parseNumLit cNum95 > 95 / 100 ∧
      tfNumFrac parseNumLit cNum95 < 1) := by
    rw [hfrac]
    norm_num
  have hrun : typeFixerCol parseNumLit (fun _ => none) (fun _ => none) []
      cNum95 = (cNum95, [], [], []) := by
    unfold typeFixerCol
    rw [if_neg (by decide), if_neg (by decide)]
    rw [if_neg (by
      intro hc
      exact hnum (by simpa using hc))]
    rw [if_neg (by decide), if_neg (by decide)]
    rw [show tfStripped cNum95 = cNum95.cells from by decide]
  exact ⟨hfrac, by norm_num, by norm_num, by rw [hrun], by rw [hrun],
    by rw [hrun]⟩

/-- C5 (amended): for a text-typed column with a non-empty sample, the
numeric coercion fires exactly when *strictly more* than 95% (and less
than 100%) of the sampled values numeric-coerce, logging a
`coerce_numeric` entry and marking the column modified; otherwise the
boolean subset test is tried, logging `coerce_boolean`; otherwise the
datetime coercion runs for `datetime_col` roles and logs *nothing* —
on success it only marks the column modified, and if `pd.to_datetime`
raises it only emits a warning.  The three coercions are mutually
exclusive and at most one log entry is produced per column. -/
theorem c5_type_fixer_threshold_order (parseNum : String → Option ℚ)
    (dtCoerce : Val → Option Val) (exc : String → Option String)
    (schema : List (String × String))
    (col : PCol) (hobj : isObjectDtype col.dtype = true)
    (hs : (tfSample col).isEmpty = false) :
    ((typeFixerCol parseNum dtCoerce exc schema col).2.1.length ≤ 1) ∧
    (tfNumFrac parseNum col > 95 / 100 ∧ tfNumFrac parseNum col < 1 →
      (typeFixerCol parseNum dtCoerce exc schema col).2.1 =
        [⟨"TypeFixer", "coerce_numeric", col.name, "info"⟩] ∧
      (typeFixerCol parseNum dtCoerce exc schema col).1.cells =
        (tfStripped col).map
          (fun oc => (oc.bind (cellNum parseNum)).map Val.vNum) ∧
      (typeFixerCol parseNum dtCoerce exc schema col).2.2.2 = [col.name]) ∧
    (¬(tfNumFrac parseNum col > 95 / 100 ∧ tfNumFrac parseNum col < 1) →
      tfBoolSubset col = true →
      (typeFixerCol parseNum dtCoerce exc schema col).2.1 =
        [⟨"TypeFixer", "coerce_boolean", col.name, "info"⟩] ∧
      (typeFixerCol parseNum dtCoerce exc schema col).2.2.2 = [col.name]) ∧
    (¬(tfNumFrac parseNum col > 95 / 100 ∧ tfNumFrac parseNum col < 1) →
      tfBoolSubset col = false →
      schemaGet schema col.name = some "datetime_col" →
      (typeFixerCol parseNum dtCoerce exc schema col).2.1 = [] ∧
      (exc col.name = none →
        (typeFixerCol parseNum dtCoerce exc schema col).1.cells =
          (tfStripped col).map (fun oc => oc.bind dtCoerce) ∧
        (typeFixerCol parseNum dtCoerce exc schema col).2.2.2 = [col.name] ∧
        (typeFixerCol parseNum dtCoerce exc schema col).2.2.1 = []) ∧
      (¬exc col.name = none →
        (typeFixerCol parseNum dtCoerce exc schema col).2.2.1 =
          [.typefixDatetime col.name] ∧
        (typeFixerCol parseNum dtCoerce exc schema col).1.cells =
          tfStripped col ∧
        (typeFixerCol parseNum dtCoerce exc schema col).2.2.2 = [])) ∧
    (¬(tfNumFrac parseNum col > 95 / 100 ∧ tfNumFrac parseNum col < 1) →
      tfBoolSubset col = false →
      ¬schemaGet schema col.name = some "datetime_col" →
      (typeFixerCol parseNum dtCoerce exc schema col).2.1 = [] ∧
      (typeFixerCol parseNum dtCoerce exc schema col).1.cells =
        tfStripped col ∧
      (typeFixerCol parseNum dtCoerce exc schema col).2.2.2 = []) := by
  have hobj' : (!isObjectDtype col.dtype) = false := by simp [hobj]
  unfold typeFixerCol
  rw [hobj']
  simp only [Bool.false_eq_true, if_false, hs]
  by_cases hnum : (tfNumFrac parseNum col > 95 / 100 ∧
      tfNumFrac parseNum col < 1)
  · rw [if_pos (by simpa using hnum)]
    refine ⟨by simp, fun _ => ⟨rfl, rfl, rfl⟩, ?_, ?_, ?_⟩
    · intro hc _; exact absurd hnum hc
    · intro hc _ _; exact absurd hnum hc
    · intro hc _ _; exact absurd hnum hc
  · rw [if_neg (by simpa using hnum)]
    by_cases hbool : tfBoolSubset col = true
    · rw [if_pos hbool]
      refine ⟨by simp, fun hc => absurd hc hnum, fun _ _ => ⟨rfl, rfl⟩,
        ?_, ?_⟩
      · intro _ hb _; rw [hbool] at hb; cases hb
      · intro _ hb _; rw [hbool] at hb; cases hb
    · rw [if_neg hbool]
      by_cases hdt : schemaGet schema col.name == some "datetime_col"
      · rw [if_pos hdt]
        refine ⟨?_, fun hc => absurd hc hnum, ?_, fun _ _ _ => ?_, ?_⟩
        · cases hexc : exc col.name with
          | none => exact Nat.zero_le 1
          | some e => exact Nat.zero_le 1
        · intro _ hb; rw [hb] at hbool; exact absurd rfl hbool
        · refine ⟨?_, ?_, ?_⟩
          · cases hexc : exc col.name with
            | none => rfl
            | some e => rfl
          · intro hx
            rw [hx]
            exact ⟨rfl, rfl, rfl⟩
          · intro hx
            cases hexc : exc col.name with
            | none => exact absurd hexc hx
            | some e => exact ⟨rfl, rfl, rfl⟩
        · intro _ _ hd; exact absurd (by simpa using hdt) hd
      · rw [if_neg hdt]
        refine ⟨by simp, fun hc => absurd hc hnum, ?_, ?_,
          fun _ _ _ => ⟨rfl, rfl, rfl⟩⟩
        · intro _ hb; rw [hb] at hbool; exact absurd rfl hbool
        · intro _ _ hd
          exact absurd (by simpa using hd) (by simpa using hdt)

/-- C5 witness: the amended theorem at a concrete sample where 39 of 40
values (97.5%) coerce, so the numeric branch fires. -/
theorem c5_type_fixer_threshold_order_witness :
    (typeFixerCol parseNumLit (fun _ => none) (fun _ => none) []
      ⟨"v", .tObject,
        (List.replicate 39 (some (Val.vStr "1"))) ++ [some (Val.vStr "x")]⟩).2.1
      = [⟨"TypeFixer", "coerce_numeric", "v", "info"⟩] := by
  have h := c5_type_fixer_threshold_order parseNumLit (fun _ => none)
    (fun _ => none) []
    ⟨"v", .tObject,
      (List.replicate 39 (some (Val.vStr "1"))) ++ [some (Val.vStr "x")]⟩
    (by decide) (by decide)
  refine (h.2.1 ?_).1
  constructor <;>
    rw [show tfNumFrac parseNumLit
        ⟨"v", .tObject,
          (List.replicate 39 (some (Val.vStr "1"))) ++ [some (Val.vStr "x")]⟩
        = (39 : ℚ) / 40 from by
      unfold tfNumFrac
      rw [show (tfSample ⟨"v", .tObject,
          (List.replicate 39 (some (Val.vStr "1"))) ++
            [some (Val.vStr "x")]⟩).countP
          (fun v => (cellNum parseNumLit v).isSome) = 39 from by decide,
        show (tfSample ⟨"v", .tObject,
          (List.replicate 39 (some (Val.vStr "1"))) ++
            [some (Val.vStr "x")]⟩).length = 40 from by decide]
      norm_num] <;>
    norm_num

/-! ### C8 — Outlier Detector frame property -/

/-- The outlier loop only accumulates per-column logs and warnings. -/
theorem outlierFold_append (pOracle : List ℚ → Option ℚ)
    (exc : String → Option String) (domain : String)
    (schema : List (String × String)) (cols : List PCol) :
    ∀ acc : List LogEntry × List PWarning,
      cols.foldl (fun acc col =>
        let r := outlierColOutput pOracle exc domain schema col
        (acc.1 ++ r.1, acc.2 ++ r.2)) acc =
      (acc.1 ++ (cols.map (fun col =>
          (outlierColOutput pOracle exc domain schema col).1)).flatten,
       acc.2 ++ (cols.map (fun col =>
          (outlierColOutput pOracle exc domain schema col).2)).flatten) := by
  induction cols with
  | nil => intro acc; simp
  | cons c rest ih =>
    intro acc
    simp only [List.foldl_cons]
    rw [ih]
    simp

/-- C8: `OutlierDetector.run` returns the very same frame — same
columns, same cells, hence same row and column counts — and a column on
which the runtime raises is skipped with a `skip_column` log entry and
a warning instead of aborting the step. -/
theorem c8_outlier_detector_pure_annotation (pOracle : List ℚ → Option ℚ)
    (exc : String → Option String) (domain : String)
    (schema : List (String × String)) (cols : List PCol) :
    (outlierDetectorRun pOracle exc domain schema cols).1 = cols ∧
    (∀ col ∈ cols, ∀ e, exc col.name = some e →
      (⟨"OutlierDetector", "skip_column", col.name, "warning"⟩ : LogEntry) ∈
        (outlierDetectorRun pOracle exc domain schema cols).2.1 ∧
      PWarning.outlierSkip col.name e ∈
        (outlierDetectorRun pOracle exc domain schema cols).2.2) := by
  have hrun : outlierDetectorRun pOracle exc domain schema cols =
      (cols,
       (cols.map (fun col =>
          (outlierColOutput pOracle exc domain schema col).1)).flatten,
       (cols.map (fun col =>
          (outlierColOutput pOracle exc domain schema col).2)).flatten) := by
    unfold outlierDetectorRun
    rw [outlierFold_append]
    simp
  constructor
  · rw [hrun]
  · intro col hmem e he
    have hcol : outlierColOutput pOracle exc domain schema col =
        ([⟨"OutlierDetector", "skip_column", col.name, "warning"⟩],
         [PWarning.outlierSkip col.name e]) := by
      unfold outlierColOutput
      rw [he]
    constructor
    · rw [hrun]
      apply List.mem_flatten.mpr
      exact ⟨[⟨"OutlierDetector", "skip_column", col.name, "warning"⟩],
        List.mem_map.mpr ⟨col, hmem, by rw [hcol]⟩, by simp⟩
    · rw [hrun]
      apply List.mem_flatten.mpr
      exact ⟨[PWarning.outlierSkip col.name e],
        List.mem_map.mpr ⟨col, hmem, by rw [hcol]⟩, by simp⟩

/-- C8 witness: a healthcare table whose only column raises — the frame
is unchanged and the skip is logged. -/
theorem c8_outlier_detector_pure_annotation_witness :
    (outlierDetectorRun (fun _ => none)
      (fun n => if n == "age" then some "boom" else none) "healthcare" []
      [ageCol]).1 = [ageCol] ∧
    (⟨"OutlierDetector", "skip_column", "age", "warning"⟩ : LogEntry) ∈
      (outlierDetectorRun (fun _ => none)
        (fun n => if n == "age" then some "boom" else none) "healthcare" []
        [ageCol]).2.1 := by
  have h := c8_outlier_detector_pure_annotation (fun _ => none)
    (fun n => if n == "age" then some "boom" else none) "healthcare" []
    [ageCol]
  exact ⟨h.1, (h.2 ageCol (by simp) "boom" (by decide)).1⟩

/-! ### C1 — Missing Value Handler policy -/

/-- The branch structure of `mvhCol`, written out flat. -/
theorem mvhCol_eq (schema : List (String × String)) (total : ℕ)
    (col : PCol) :
    mvhCol schema total col =
      if countNone col.cells == 0 then (col, none, [], [])
      else if ((countNone col.cells : ℚ) / (total : ℚ)) > 30 / 100 then
        (col, none, [], [PWarning.highMissing col.name])
      else
        ({ col with cells :=
            if (mvhMethod schema col).1 == "ffill" then ffillCells col.cells
            else fillNa (mvhMethod schema col).2 col.cells },
         (if ((countNone col.cells : ℚ) / (total : ℚ)) ≥ 5 / 100 then
            some ⟨col.name ++ "_was_missing", .tInt,
              col.cells.map
                (fun oc => some (.vNum (if oc.isNone then 1 else 0)))⟩
          else none),
         (if ((countNone col.cells : ℚ) / (total : ℚ)) ≥ 5 / 100 then
            [⟨"MissingHandler", "add_indicator", col.name, "info"⟩]
          else []) ++ [⟨"MissingHandler", "impute", col.name, "info"⟩],
         []) := rfl

/-- The handler never renames a column. -/
theorem mvhCol_name (schema : List (String × String)) (total : ℕ)
    (col : PCol) : (mvhCol schema total col).1.name = col.name := by
  rw [mvhCol_eq]
  split_ifs <;> rfl

/-- Filling with a concrete value removes every null. -/
theorem fillNa_some_countNone (v : Val) (cells : List (Option Val)) :
    countNone (fillNa (some v) cells) = 0 := by
  induction cells with
  | nil => rfl
  | cons oc rest ih =>
    simp only [fillNa, List.map_cons] at *
    simp [countNone, List.countP_cons] at *

/-- Forward fill with a non-null history leaves no null. -/
theorem ffillAux_some_countNone (cells : List (Option Val)) :
    ∀ v, countNone (ffillAux cells (some v)) = 0 := by
  induction cells with
  | nil => intro v; rfl
  | cons oc rest ih =>
    intro v
    cases oc with
    | some w =>
      have h0 := ih w
      unfold countNone at h0 ⊢
      simp [ffillAux, List.countP_cons, h0]
    | none =>
      have h0 := ih v
      unfold countNone at h0 ⊢
      simp [ffillAux, List.countP_cons, h0]

/-- Forward fill leaves exactly the leading nulls. -/
theorem ffill_countNone (cells : List (Option Val)) :
    countNone (ffillCells cells) =
      (cells.takeWhile (fun oc => oc.isNone)).length := by
  unfold ffillCells
  induction cells with
  | nil => rfl
  | cons oc rest ih =>
    cases oc with
    | some w =>
      have h0 := ffillAux_some_countNone rest w
      simp [ffillAux, countNone, List.countP_cons, List.takeWhile] at *
      exact h0
    | none =>
      simp [ffillAux, countNone, List.countP_cons, List.takeWhile] at *
      exact ih

/-- Non-null cell count against null count. -/
theorem nonNull_length (cells : List (Option Val)) :
    (nonNull cells).length = cells.length - countNone cells := by
  induction cells with
  | nil => rfl
  | cons oc rest ih =>
    cases oc with
    | some v =>
      have hle : countNone rest ≤ rest.length := by
        unfold countNone
        exact List.countP_le_length _
      simp [nonNull, countNone, List.countP_cons] at *
      omega
    | none =>
      simp [nonNull, countNone, List.countP_cons] at *
      exact ih

/-- On a well-typed numeric column, every non-null cell contributes a
number. -/
theorem filterMap_valNum_length (l : List Val)
    (h : ∀ v ∈ l, ∃ q, v = Val.vNum q) :
    (l.filterMap valNum).length = l.length := by
  induction l with
  | nil => rfl
  | cons v rest ih =>
    obtain ⟨q, hq⟩ := h v (by simp)
    subst hq
    simp only [List.filterMap_cons, valNum, List.length_cons]
    rw [ih (fun w hw => h w (by simp [hw]))]

/-- A non-empty list has a median. -/
theorem medianOf_isSome (l : List ℚ) (h : l ≠ []) :
    ∃ q, medianOf l = some q := by
  unfold medianOf
  have hlen : (sortRat l).length ≠ 0 := by
    unfold sortRat
    rw [List.length_mergeSort]
    simpa using fun hc => h (List.length_eq_zero.mp hc)
  rw [if_neg hlen]
  split_ifs <;> exact ⟨_, rfl⟩

/-- First-occurrence lookup in a name-preserving image of a frame with
distinct column names finds the image of the column. -/
theorem find?_name_map (g : PCol → PCol) (hg : ∀ c, (g c).name = c.name) :
    ∀ (cols : List PCol) (col : PCol), col ∈ cols →
      (cols.map PCol.name).Nodup →
      (cols.map g).find? (fun c => c.name == col.name) = some (g col) := by
  intro cols
  induction cols with
  | nil => intro col h; simp at h
  | cons c rest ih =>
    intro col hmem hnodup
    simp only [List.map_cons, List.find?_cons]
    by_cases hc : ((g c).name == col.name) = true
    · have hcname : c.name = col.name := by
        rw [hg c] at hc
        simpa using hc
      have hcol : col = c := by
        rcases List.mem_cons.mp hmem with rfl | hmem'
        · rfl
        · exfalso
          simp only [List.map_cons, List.nodup_cons] at hnodup
          exact hnodup.1 (hcname ▸ List.mem_map.mpr ⟨col, hmem', rfl⟩)
      rw [hc]
      rw [hcol]
    · have hcname : ¬c.name = col.name := by
        rw [hg c] at hc
        simpa using hc
      have hmem' : col ∈ rest := by
        rcases List.mem_cons.mp hmem with rfl | hmem'
        · exact absurd rfl hcname
        · exact hmem'
      simp only [List.map_cons, List.nodup_cons] at hnodup
      rw [show ((g c).name == col.name) = false from by
        simpa using hc]
      exact ih col hmem' hnodup.2

/-- Unless the method is forward-fill, the selected fill value is a
concrete value (the median exists on a well-typed numeric column with a
non-null cell; the mode falls back to the literal `Missing`). -/
theorem mvhMethod_fill_isSome (schema : List (String × String)) (col : PCol)
    (hnn : nonNull col.cells ≠ [])
    (htyped : isNumericDtype col.dtype = true →
      ∀ v ∈ nonNull col.cells, ∃ q, v = Val.vNum q)
    (hm : (mvhMethod schema col).1 ≠ "ffill") :
    ∃ v, (mvhMethod schema col).2 = some v := by
  unfold mvhMethod at hm ⊢
  dsimp only at hm ⊢
  split_ifs at hm ⊢ with h1 h2
  · have hnum : isNumericDtype col.dtype = true := by
      simp only [Bool.and_eq_true] at h1
      exact h1.1
    have hlen : (List.filterMap valNum (nonNull col.cells)).length ≠ 0 := by
      rw [filterMap_valNum_length _ (htyped hnum)]
      simpa [List.length_eq_zero] using hnn
    obtain ⟨q, hq⟩ := medianOf_isSome (List.filterMap valNum (nonNull col.cells))
      (fun hc => hlen (by rw [hc]; rfl))
    exact ⟨Val.vNum q, by simp [hq]⟩
  · simp at hm
  · exact ⟨(modeOf (nonNull col.cells)).getD (Val.vStr "Missing"), rfl⟩

/-- Null counts after imputation: zero for the median/mode fills, the
leading-null count for forward fill. -/
theorem mvhCol_imputed_countNone (schema : List (String × String))
    (total : ℕ) (col : PCol)
    (hc : countNone col.cells ≠ 0)
    (hp : ¬((countNone col.cells : ℚ) / (total : ℚ) > 30 / 100))
    (hnn : nonNull col.cells ≠ [])
    (htyped : isNumericDtype col.dtype = true →
      ∀ v ∈ nonNull col.cells, ∃ q, v = Val.vNum q) :
    ((mvhMethod schema col).1 ≠ "ffill" →
      countNone (mvhCol schema total col).1.cells = 0) ∧
    ((mvhMethod schema col).1 = "ffill" →
      countNone (mvhCol schema total col).1.cells =
        (col.cells.takeWhile (fun oc => oc.isNone)).length) := by
  constructor
  · intro hm
    rw [mvhCol_eq, if_neg (by simpa using hc), if_neg hp]
    show countNone (if (mvhMethod schema col).1 == "ffill" then
      ffillCells col.cells else fillNa (mvhMethod schema col).2 col.cells) = 0
    rw [if_neg (by simpa using hm)]
    obtain ⟨v, hv⟩ := mvhMethod_fill_isSome schema col hnn htyped hm
    rw [hv]
    exact fillNa_some_countNone v col.cells
  · intro hm
    rw [mvhCol_eq, if_neg (by simpa using hc), if_neg hp]
    show countNone (if (mvhMethod schema col).1 == "ffill" then
      ffillCells col.cells else fillNa (mvhMethod schema col).2 col.cells) = _
    rw [if_pos (by simpa using hm)]
    exact ffill_countNone col.cells

/-- Appending the same suffix to two strings preserves distinctness. -/
theorem string_append_cancel {a b s : String} (h : a ++ s = b ++ s) :
    a = b := by
  have hd := congrArg String.data h
  rw [String.data_append, String.data_append] at hd
  cases a with
  | mk da =>
    cases b with
    | mk db =>
      have : da = db := List.append_cancel_right hd
      rw [this]

/-- When the handler adds an indicator column, and what it looks like. -/
theorem mvhCol_ind (schema : List (String × String)) (total : ℕ)
    (col : PCol) :
    (mvhCol schema total col).2.1 =
      (if countNone col.cells ≠ 0 ∧
          ¬((countNone col.cells : ℚ) / (total : ℚ) > 30 / 100) ∧
          (countNone col.cells : ℚ) / (total : ℚ) ≥ 5 / 100 then
        some ⟨col.name ++ "_was_missing", .tInt,
          col.cells.map (fun oc => some (.vNum (if oc.isNone then 1 else 0)))⟩
      else none) := by
  rw [mvhCol_eq]
  by_cases h1 : (countNone col.cells == 0) = true
  · rw [if_pos h1]
    rw [if_neg (by
      simp only [beq_iff_eq] at h1
      simp [h1])]
  · rw [if_neg h1]
    by_cases h2 : (countNone col.cells : ℚ) / (total : ℚ) > 30 / 100
    · rw [if_pos h2]
      rw [if_neg (by
        rintro ⟨-, hn, -⟩
        exact hn h2)]
    · rw [if_neg h2]
      show (if (countNone col.cells : ℚ) / (total : ℚ) ≥ 5 / 100 then _
        else none) = _
      by_cases h3 : (countNone col.cells : ℚ) / (total : ℚ) ≥ 5 / 100
      · rw [if_pos h3, if_pos ⟨by simpa using h1, h2, h3⟩]
      · rw [if_neg h3]
        rw [if_neg (by
          rintro ⟨-, -, hg⟩
          exact h3 hg)]

/-- The high-missing branch leaves the column untouched and raises the
dataset warning. -/
theorem mvhCol_high (schema : List (String × String)) (total : ℕ)
    (col : PCol)
    (hp : (countNone col.cells : ℚ) / (total : ℚ) > 30 / 100) :
    mvhCol schema total col = (col, none, [], [PWarning.highMissing col.name])
    := by
  have hc : ¬(countNone col.cells == 0) = true := by
    intro h
    simp only [beq_iff_eq] at h
    rw [h] at hp
    norm_num at hp
  rw [mvhCol_eq, if_neg hc, if_pos hp]

/-- C1 (counterexample): a numeric column with 2 nulls out of 5 rows has
null fraction 0.4 ≥ 0.05, yet — because 0.4 > 0.30 takes the no-impute
branch first — no `a_was_missing` indicator column is added, refuting
the claimed "indicator exists iff p ≥ 0.05". -/
theorem c1_no_indicator_above_30pct :
    countNone [none, none, some (Val.vNum 1), some (Val.vNum 2),
      some (Val.vNum 3)] = 2 ∧
    tableRows mvhHighNullTable = 5 ∧
    (5 / 100 : ℚ) ≤ 2 / 5 ∧
    ¬(("a" ++ "_was_missing") ∈
      (missingHandlerRun [] mvhHighNullTable).1.map PCol.name) := by
  refine ⟨by decide, by decide, by norm_num, ?_⟩
  intro hmem
  have : (missingHandlerRun [] mvhHighNullTable).1.map PCol.name = ["a"] := by
    have hcol : mvhCol [] 5
        ⟨"a", .tFloat,
          [none, none, some (.vNum 1), some (.vNum 2), some (.vNum 3)]⟩ =
        (⟨"a", .tFloat,
          [none, none, some (.vNum 1), some (.vNum 2), some (.vNum 3)]⟩,
         none, [], [PWarning.highMissing "a"]) := by
      apply mvhCol_high
      rw [show countNone [none, none, some (Val.vNum 1), some (Val.vNum 2),
        some (Val.vNum 3)] = 2 from by decide]
      norm_num
    unfold missingHandlerRun mvhHighNullTable
    rw [show tableRows [(⟨"a", .tFloat,
      [none, none, some (.vNum 1), some (.vNum 2), some (.vNum 3)]⟩ : PCol)]
      = 5 from by decide]
    simp [hcol]
  rw [this] at hmem
  simp at hmem

/-- C1 (amended): per column with null fraction `p`, after
`MissingValueHandler.run` on a non-empty frame with distinct column
names (none of which looks like another's indicator): if `p > 0.30` the
column is untouched and the dataset warning is raised; if
`0 < p ≤ 0.30` the column's null count drops to 0 under the median and
mode fills, while the forward fill leaves exactly the leading nulls;
and the `{col}_was_missing` indicator exists after the step iff
`0.05 ≤ p ≤ 0.30` — not iff `p ≥ 0.05` as claimed. -/
theorem c1_missing_value_policy (schema : List (String × String))
    (cols : List PCol) (col : PCol) (hmem : col ∈ cols)
    (htot : tableRows cols ≠ 0)
    (hnames : (cols.map PCol.name).Nodup)
    (hclash : ∀ c1 ∈ cols, ∀ c2 ∈ cols,
      c1.name ≠ c2.name ++ "_was_missing")
    (hnn : nonNull col.cells ≠ [])
    (htyped : isNumericDtype col.dtype = true →
      ∀ v ∈ nonNull col.cells, ∃ q, v = Val.vNum q) :
    ((countNone col.cells : ℚ) / (tableRows cols : ℚ) > 30 / 100 →
      (missingHandlerRun schema cols).1.find?
          (fun c => c.name == col.name) = some col ∧
      PWarning.highMissing col.name ∈ (missingHandlerRun schema cols).2.2) ∧
    (countNone col.cells ≠ 0 →
      ¬((countNone col.cells : ℚ) / (tableRows cols : ℚ) > 30 / 100) →
      (mvhMethod schema col).1 ≠ "ffill" →
      ∃ c, (missingHandlerRun schema cols).1.find?
          (fun c => c.name == col.name) = some c ∧ countNone c.cells = 0) ∧
    (countNone col.cells ≠ 0 →
      ¬((countNone col.cells : ℚ) / (tableRows cols : ℚ) > 30 / 100) →
      (mvhMethod schema col).1 = "ffill" →
      ∃ c, (missingHandlerRun schema cols).1.find?
          (fun c => c.name == col.name) = some c ∧
        countNone c.cells =
          (col.cells.takeWhile (fun oc => oc.isNone)).length) ∧
    ((col.name ++ "_was_missing") ∈
        (missingHandlerRun schema cols).1.map PCol.name ↔
      (5 / 100 ≤ (countNone col.cells : ℚ) / (tableRows cols : ℚ) ∧
       ¬((countNone col.cells : ℚ) / (tableRows cols : ℚ) > 30 / 100))) := by
  have hrun : missingHandlerRun schema cols =
      (cols.map (fun c => (mvhCol schema (tableRows cols) c).1) ++
         cols.filterMap (fun c => (mvhCol schema (tableRows cols) c).2.1),
       (cols.map
         (fun c => (mvhCol schema (tableRows cols) c).2.2.1)).flatten,
       (cols.map
         (fun c => (mvhCol schema (tableRows cols) c).2.2.2)).flatten) := by
    unfold missingHandlerRun
    rw [if_neg (by simpa using htot)]
  have hfind : (missingHandlerRun schema cols).1.find?
      (fun c => c.name == col.name) =
      some (mvhCol schema (tableRows cols) col).1 := by
    rw [hrun]
    show ((cols.map (fun c => (mvhCol schema (tableRows cols) c).1)) ++ _).find?
      _ = _
    rw [List.find?_append]
    rw [find?_name_map (fun c => (mvhCol schema (tableRows cols) c).1)
      (fun c => mvhCol_name schema (tableRows cols) c) cols col hmem hnames]
    rfl
  refine ⟨?_, ?_, ?_, ?_⟩
  · intro hp
    have hcol := mvhCol_high schema (tableRows cols) col hp
    constructor
    · rw [hfind, hcol]
    · rw [hrun]
      apply List.mem_flatten.mpr
      refine ⟨[PWarning.highMissing col.name],
        List.mem_map.mpr ⟨col, hmem, by rw [hcol]⟩, by simp⟩
  · intro hc hp hm
    exact ⟨(mvhCol schema (tableRows cols) col).1, hfind,
      (mvhCol_imputed_countNone schema (tableRows cols) col hc hp hnn
        htyped).1 hm⟩
  · intro hc hp hm
    exact ⟨(mvhCol schema (tableRows cols) col).1, hfind,
      (mvhCol_imputed_countNone schema (tableRows cols) col hc hp hnn
        htyped).2 hm⟩
  · rw [hrun]
    show (col.name ++ "_was_missing") ∈
      ((cols.map (fun c => (mvhCol schema (tableRows cols) c).1)) ++
        cols.filterMap
          (fun c => (mvhCol schema (tableRows cols) c).2.1)).map PCol.name ↔ _
    rw [List.map_append, List.mem_append]
    have hleft : ¬(col.name ++ "_was_missing") ∈
        (cols.map (fun c => (mvhCol schema (tableRows cols) c).1)).map
          PCol.name := by
      intro hx
      rw [List.map_map] at hx
      obtain ⟨c, hcm, hcn⟩ := List.mem_map.mp hx
      have : c.name = col.name ++ "_was_missing" := by
        rw [← mvhCol_name schema (tableRows cols) c]
        exact hcn
      exact hclash c hcm col hmem this
    constructor
    · rintro (hx | hx)
      · exact absurd hx hleft
      · obtain ⟨ic, hicm, hicn⟩ := List.mem_map.mp hx
        obtain ⟨c, hcm, hcic⟩ := List.mem_filterMap.mp hicm
        rw [mvhCol_ind] at hcic
        by_cases hcond : countNone c.cells ≠ 0 ∧
            ¬((countNone c.cells : ℚ) / (tableRows cols : ℚ) > 30 / 100) ∧
            (countNone c.cells : ℚ) / (tableRows cols : ℚ) ≥ 5 / 100
        · rw [if_pos hcond] at hcic
          have hic : ic.name = c.name ++ "_was_missing" := by
            injection hcic with hcic'
            rw [← hcic']
          have hcc : c.name = col.name :=
            string_append_cancel (by rw [← hic, hicn])
          have hceq : c = col :=
            List.inj_on_of_nodup_map hnames hcm hmem hcc
          subst hceq
          exact ⟨hcond.2.2, hcond.2.1⟩
        · rw [if_neg hcond] at hcic
          cases hcic
    · rintro ⟨h5, h30⟩
      right
      have hc0 : countNone col.cells ≠ 0 := by
        intro h0
        rw [h0] at h5
        norm_num at h5
      apply List.mem_map.mpr
      refine ⟨⟨col.name ++ "_was_missing", .tInt,
        col.cells.map (fun oc => some (.vNum (if oc.isNone then 1 else 0)))⟩,
        ?_, rfl⟩
      apply List.mem_filterMap.mpr
      refine ⟨col, hmem, ?_⟩
      rw [mvhCol_ind, if_pos ⟨hc0, h30, h5⟩]

/-- C1 witness: the amended theorem at a 5-row numeric column with one
null (p = 0.2): after the handler the column is null-free and the
indicator column exists. -/
theorem c1_missing_value_policy_witness :
    (∃ c, (missingHandlerRun [] mvhMidNullTable).1.find?
        (fun c => c.name ==
          (⟨"a", .tFloat, [none, some (.vNum 1), some (.vNum 2),
            some (.vNum 3), some (.vNum 8)]⟩ : PCol).name) = some c ∧
      countNone c.cells = 0) ∧
    ("a" ++ "_was_missing") ∈
      (missingHandlerRun [] mvhMidNullTable).1.map PCol.name := by
  have h := c1_missing_value_policy []
    mvhMidNullTable
    ⟨"a", .tFloat, [none, some (.vNum 1), some (.vNum 2), some (.vNum 3),
      some (.vNum 8)]⟩
    (by simp [mvhMidNullTable]) (by decide) (by decide) (by decide)
    (by decide)
    (fun _ => by
      intro v hv
      simp [nonNull] at hv
      rcases hv with rfl | rfl | rfl | rfl <;> exact ⟨_, rfl⟩)
  have hcount : countNone [none, some (Val.vNum 1), some (Val.vNum 2),
      some (Val.vNum 3), some (Val.vNum 8)] = 1 := by decide
  have htr : tableRows mvhMidNullTable = 5 := by decide
  refine ⟨h.2.1 (by rw [hcount]; norm_num)
      (by rw [hcount, htr]; norm_num) (by decide), ?_⟩
  exact (h.2.2.2).mpr ⟨by rw [hcount, htr]; norm_num,
    by rw [hcount, htr]; norm_num⟩

/-! ### C4 — Normalizer output names -/

/-- C4: a frame with two columns both labelled `A` (pandas allows
duplicate labels).  The loop generates the distinct names `a` and
`a_1`, but the rename is applied through `dict(zip(old, new))`, which
collapses the duplicate key: both columns end up `a_1`, so the output
names are not pairwise unique — contradicting the docstring
"Handle duplicate column names" and the spec. -/
theorem c4_duplicate_labels_break_uniqueness :
    (normalizerRun ["A", "A"]).1 = ["a_1", "a_1"] ∧
    ¬(normalizerRun ["A", "A"]).1.Nodup := by
  constructor
  · decide
  · intro h
    rw [show (normalizerRun ["A", "A"]).1 = ["a_1", "a_1"] from by decide]
      at h
    simp at h

/-! ### C9 — Normalizer idempotence -/

/-- Map with a pointwise-identity function. -/
theorem map_id_on {f : Char → Char} :
    ∀ {cs : List Char}, (∀ c ∈ cs, f c = c) → cs.map f = cs
  | [], _ => rfl
  | c :: rest, h => by
    simp only [List.map_cons]
    rw [h c (by simp), map_id_on (fun d hd => h d (by simp [hd]))]

/-- Characters of normalized names are untouched by lowering. -/
theorem pyLowerCh_fixed {c : Char} (h : (keepChar c || c == '_') = true) :
    pyLowerCh c = c := by
  have h' : (97 ≤ c.toNat ∧ c.toNat ≤ 122) ∨
      (48 ≤ c.toNat ∧ c.toNat ≤ 57) ∨ c = '_' := by
    simp only [keepChar, Bool.or_eq_true, Bool.and_eq_true,
      decide_eq_true_eq, beq_iff_eq] at h
    tauto
  unfold pyLowerCh
  rw [if_neg]
  simp only [Bool.and_eq_true, decide_eq_true_eq, not_and]
  intro h65
  rcases h' with ⟨h1, h2⟩ | ⟨h1, h2⟩ | rfl
  · omega
  · omega
  · decide

/-- Characters of normalized names are not whitespace. -/
theorem keep_not_space {c : Char} (h : (keepChar c || c == '_') = true) :
    isSpaceCh c = false := by
  have h' : (97 ≤ c.toNat ∧ c.toNat ≤ 122) ∨
      (48 ≤ c.toNat ∧ c.toNat ≤ 57) ∨ c = '_' := by
    simp only [keepChar, Bool.or_eq_true, Bool.and_eq_true,
      decide_eq_true_eq, beq_iff_eq] at h
    tauto
  simp only [isSpaceCh, Bool.or_eq_false_iff, beq_eq_false_iff_ne]
  rcases h' with ⟨h1, h2⟩ | ⟨h1, h2⟩ | rfl
  · refine ⟨⟨⟨⟨⟨?_, ?_⟩, ?_⟩, ?_⟩, ?_⟩, ?_⟩ <;> omega
  · refine ⟨⟨⟨⟨⟨?_, ?_⟩, ?_⟩, ?_⟩, ?_⟩, ?_⟩ <;> omega
  · decide

/-- Replacing specials is the identity on normalized characters. -/
theorem subSpecial_id : ∀ {cs : List Char},
    (∀ c ∈ cs, (keepChar c || c == '_') = true) → subSpecial cs = cs
  | [], _ => rfl
  | c :: rest, h => by
    have ht : subSpecial rest = rest :=
      subSpecial_id (fun d hd => h d (by simp [hd]))
    simp only [subSpecial, List.map_cons] at ht ⊢
    rw [ht]
    rcases Bool.or_eq_true_iff.mp (h c (by simp)) with hk | hu
    · rw [if_pos hk]
    · have hc : c = '_' := by simpa using hu
      rw [hc]
      simp [keepChar]

/-- `dropWhile` is the identity when no element satisfies the test. -/
theorem dropWhile_id {p : Char → Bool} {cs : List Char}
    (h : ∀ c ∈ cs, p c = false) : cs.dropWhile p = cs := by
  cases cs with
  | nil => rfl
  | cons c rest =>
    rw [List.dropWhile_cons, h c (by simp)]
    simp

/-- `strip()` is the identity on whitespace-free strings. -/
theorem stripWS_id {cs : List Char}
    (h : ∀ c ∈ cs, isSpaceCh c = false) : stripWS cs = cs := by
  unfold stripWS
  rw [dropWhile_id h, dropWhile_id (fun c hc => h c (List.mem_reverse.mp hc)),
    List.reverse_reverse]

/-- Collapsing is the identity without adjacent underscores. -/
theorem collapse_id : ∀ {cs : List Char}, noAdjUnders cs = true →
    collapseUnders cs = cs
  | [], _ => rfl
  | [c], _ => rfl
  | a :: b :: rest, h => by
    simp only [noAdjUnders, Bool.and_eq_true] at h
    cases hab : (a == '_' && b == '_') with
    | true =>
      rw [hab] at h
      simp at h
    | false =>
      show (if a == '_' && b == '_' then collapseUnders (b :: rest)
        else a :: collapseUnders (b :: rest)) = a :: b :: rest
      rw [hab]
      simp only [Bool.false_eq_true, if_false]
      rw [collapse_id h.2]

/-- `dropWhile` keeps a list whose head fails the test. -/
theorem dropWhile_head_id {p : Char → Bool} {cs : List Char}
    (h : ∀ c, cs.head? = some c → p c = false) : cs.dropWhile p = cs := by
  cases cs with
  | nil => rfl
  | cons c rest =>
    rw [List.dropWhile_cons, h c rfl]
    simp

/-- Underscore-trimming is the identity when neither end is an
underscore. -/
theorem trimUnders_id {cs : List Char}
    (hh : ∀ c, cs.head? = some c → (c == '_') = false)
    (hl : ∀ c, cs.getLast? = some c → (c == '_') = false) :
    trimUnders cs = cs := by
  unfold trimUnders
  rw [dropWhile_head_id hh]
  rw [dropWhile_head_id (fun c hc => hl c ((List.head?_reverse cs) ▸ hc))]
  exact List.reverse_reverse cs

/-- The digit guard is the identity when the head is not a digit. -/
theorem guardDigit_id {cs : List Char}
    (h : ∀ c, cs.head? = some c → isDigitCh c = false) :
    guardDigit cs = cs := by
  cases cs with
  | nil => rfl
  | cons c rest =>
    show (if isDigitCh c then 'c' :: 'o' :: 'l' :: '_' :: c :: rest
      else c :: rest) = c :: rest
    rw [h c rfl]
    simp

/-- The per-name normalization fixes every normalized name. -/
theorem normalizeChars_id {cs : List Char} (h : normalChars cs = true) :
    normalizeChars cs = cs := by
  cases cs with
  | nil => simp [normalChars] at h
  | cons c0 rest =>
    simp only [normalChars, Bool.and_eq_true] at h
    obtain ⟨⟨⟨⟨hall, hh⟩, hd⟩, hlast⟩, hadj⟩ := h
    rw [List.all_eq_true] at hall
    have hh' : (c0 == '_') = false := by
      cases hx : (c0 == '_') with
      | true => rw [hx] at hh; simp at hh
      | false => rfl
    have hd' : isDigitCh c0 = false := by
      cases hx : isDigitCh c0 with
      | true => rw [hx] at hd; simp at hd
      | false => rfl
    have hlast' : ((c0 :: rest).getLast (List.cons_ne_nil c0 rest) == '_')
        = false := by
      cases hx : ((c0 :: rest).getLast (List.cons_ne_nil c0 rest) == '_') with
      | true => rw [hx] at hlast; simp at hlast
      | false => rfl
    unfold normalizeChars
    dsimp only
    rw [map_id_on (fun c hc => pyLowerCh_fixed (hall c hc)),
      stripWS_id (fun c hc => keep_not_space (hall c hc)),
      subSpecial_id hall, collapse_id hadj]
    rw [trimUnders_id
      (fun c hc => by
        have he : c0 = c := by simpa using hc
        rw [← he]
        exact hh')
      (fun c hc => by
        rw [List.getLast?_eq_getLast _ (List.cons_ne_nil c0 rest)] at hc
        have he : (c0 :: rest).getLast (List.cons_ne_nil c0 rest) = c := by
          simpa using hc
        rw [← he]
        exact hlast')]
    rw [guardDigit_id (fun c hc => by
      have he : c0 = c := by simpa using hc
      rw [← he]
      exact hd')]
    simp

/-- String-level fixed point. -/
theorem normalizeName_id {s : String} (h : isNormalName s = true) :
    normalizeName s = s := by
  cases s with
  | mk data =>
    unfold normalizeName
    rw [normalizeChars_id h]

/-- `noAdjUnders` as a chain of non-double-underscore pairs. -/
theorem noAdj_iff_chain : ∀ {l : List Char},
    noAdjUnders l = true ↔ l.Chain' (fun a b => ¬(a = '_' ∧ b = '_'))
  | [] => by simp [noAdjUnders]
  | [c] => by simp [noAdjUnders]
  | a :: b :: rest => by
    rw [List.chain'_cons]
    show (!(a == '_' && b == '_') && noAdjUnders (b :: rest)) = true ↔ _
    rw [Bool.and_eq_true, noAdj_iff_chain]
    constructor
    · rintro ⟨h1, h2⟩
      refine ⟨?_, h2⟩
      rintro ⟨ha, hb⟩
      subst ha
      subst hb
      simp at h1
    · rintro ⟨h1, h2⟩
      refine ⟨?_, h2⟩
      cases hx : (a == '_' && b == '_') with
      | false => rfl
      | true =>
        simp only [Bool.and_eq_true, beq_iff_eq] at hx
        exact absurd hx h1

/-- Prepend preserves `noAdjUnders` when the junction is safe. -/
theorem noAdj_cons {a : Char} {l : List Char}
    (h1 : noAdjUnders l = true)
    (h2 : ∀ b, l.head? = some b → (a == '_' && b == '_') = false) :
    noAdjUnders (a :: l) = true := by
  cases l with
  | nil => rfl
  | cons b rest =>
    show (!(a == '_' && b == '_') && noAdjUnders (b :: rest)) = true
    rw [h2 b rfl, h1]
    rfl

/-- Specials-replacement produces only kept characters or underscores. -/
theorem subSpecial_chars {cs : List Char} :
    ∀ c ∈ subSpecial cs, (keepChar c || c == '_') = true := by
  intro c hc
  unfold subSpecial at hc
  obtain ⟨d, _, hd⟩ := List.mem_map.mp hc
  by_cases hk : keepChar d = true
  · rw [if_pos hk] at hd
    rw [← hd]
    simp [hk]
  · rw [if_neg hk] at hd
    rw [← hd]
    simp

/-- Collapsing preserves the head. -/
theorem collapse_head : ∀ (cs : List Char),
    (collapseUnders cs).head? = cs.head?
  | [] => rfl
  | [_] => rfl
  | a :: b :: rest => by
    cases hab : (a == '_' && b == '_') with
    | true =>
      show (if a == '_' && b == '_' then collapseUnders (b :: rest)
        else a :: collapseUnders (b :: rest)).head? = some a
      rw [hab]
      simp only [if_pos]
      rw [collapse_head (b :: rest)]
      have : a = '_' := by
        simp only [Bool.and_eq_true, beq_iff_eq] at hab
        exact hab.1
      have hb : b = '_' := by
        simp only [Bool.and_eq_true, beq_iff_eq] at hab
        exact hab.2
      rw [this, hb]
      rfl
    | false =>
      show (if a == '_' && b == '_' then collapseUnders (b :: rest)
        else a :: collapseUnders (b :: rest)).head? = some a
      rw [hab]
      simp

/-- Collapsing only keeps characters of the input. -/
theorem collapse_mem : ∀ {cs : List Char}, ∀ c ∈ collapseUnders cs, c ∈ cs
  | [], _, hc => by simp [collapseUnders] at hc
  | [d], c, hc => by
    simpa [collapseUnders] using hc
  | a :: b :: rest, c, hc => by
    revert hc
    show c ∈ (if a == '_' && b == '_' then collapseUnders (b :: rest)
      else a :: collapseUnders (b :: rest)) → _
    intro hc
    by_cases hab : (a == '_' && b == '_') = true
    · rw [if_pos hab] at hc
      exact List.mem_cons_of_mem a (collapse_mem c hc)
    · rw [if_neg hab] at hc
      rcases List.mem_cons.mp hc with rfl | hc'
      · exact List.mem_cons_self c _
      · exact List.mem_cons_of_mem a (collapse_mem c hc')

/-- Collapsing leaves no adjacent underscores. -/
theorem collapse_noAdj : ∀ (cs : List Char),
    noAdjUnders (collapseUnders cs) = true
  | [] => rfl
  | [_] => rfl
  | a :: b :: rest => by
    cases hab : (a == '_' && b == '_') with
    | true =>
      show noAdjUnders (if a == '_' && b == '_' then collapseUnders (b :: rest)
        else a :: collapseUnders (b :: rest)) = true
      rw [hab]
      simp only [if_pos]
      exact collapse_noAdj (b :: rest)
    | false =>
      show noAdjUnders (if a == '_' && b == '_' then collapseUnders (b :: rest)
        else a :: collapseUnders (b :: rest)) = true
      rw [hab]
      simp only [Bool.false_eq_true, if_false]
      refine noAdj_cons (collapse_noAdj (b :: rest)) ?_
      intro b' hb'
      rw [collapse_head (b :: rest)] at hb'
      have hbb : b = b' := by simpa using hb'
      rw [← hbb]
      exact hab

/-- Trimming only keeps characters of the input. -/
theorem trim_mem {cs : List Char} : ∀ c ∈ trimUnders cs, c ∈ cs := by
  intro c hc
  unfold trimUnders at hc
  rw [List.mem_reverse] at hc
  have h1 := (List.dropWhile_suffix
    (fun d => d == '_')).sublist.subset hc
  rw [List.mem_reverse] at h1
  exact (List.dropWhile_suffix (fun d => d == '_')).sublist.subset h1

/-- Trimming preserves the no-adjacent-underscores property. -/
theorem trim_noAdj {cs : List Char} (h : noAdjUnders cs = true) :
    noAdjUnders (trimUnders cs) = true := by
  rw [noAdj_iff_chain] at h ⊢
  have hsym : ∀ l : List Char,
      l.Chain' (fun a b => ¬(a = '_' ∧ b = '_')) →
      l.reverse.Chain' (fun a b => ¬(a = '_' ∧ b = '_')) := by
    intro l hl
    rw [List.chain'_reverse]
    exact hl.imp (fun a b hab => by
      rintro ⟨h1, h2⟩
      exact hab ⟨h2, h1⟩)
  unfold trimUnders
  exact hsym _
    ((hsym _ (h.suffix (List.dropWhile_suffix _))).suffix
      (List.dropWhile_suffix _))

/-- The head of a `dropWhile` result fails the test. -/
theorem dropWhile_head_not {p : Char → Bool} :
    ∀ {l : List Char} {c : Char}, (l.dropWhile p).head? = some c →
      p c = false
  | [], c, hc => by simp [List.dropWhile] at hc
  | a :: rest, c, hc => by
    rw [List.dropWhile_cons] at hc
    by_cases ha : p a = true
    · rw [ha] at hc
      simp only [if_pos] at hc
      exact dropWhile_head_not hc
    · rw [Bool.not_eq_true] at ha
      rw [ha] at hc
      simp only [Bool.false_eq_true, if_false, List.head?_cons,
        Option.some.injEq] at hc
      rw [← hc]
      exact ha

/-- The head of a trimmed list is not an underscore. -/
theorem trim_head {cs : List Char} {c : Char}
    (hc : (trimUnders cs).head? = some c) : (c == '_') = false := by
  unfold trimUnders at hc
  rw [List.head?_reverse] at hc
  rcases hsuf : List.dropWhile (fun d => d == '_')
      (List.dropWhile (fun d => d == '_') cs).reverse with _ | ⟨x, xs⟩
  · rw [hsuf] at hc
    simp at hc
  · rw [hsuf] at hc
    obtain ⟨t, ht⟩ := List.dropWhile_suffix
      (fun d => d == '_')
      (l := (List.dropWhile (fun d => d == '_') cs).reverse)
    rw [hsuf] at ht
    have := congrArg List.getLast? ht
    rw [List.getLast?_append, List.getLast?_reverse] at this
    have hgl : (x :: xs).getLast? = some c := hc
    rw [hgl] at this
    simp only [Option.or_some] at this
    have hr := dropWhile_head_not this.symm
    exact hr

/-- The last character of a trimmed list is not an underscore. -/
theorem trim_last {cs : List Char} {c : Char}
    (hc : (trimUnders cs).getLast? = some c) : (c == '_') = false := by
  unfold trimUnders at hc
  rw [List.getLast?_reverse] at hc
  have hr := dropWhile_head_not hc
  exact hr

/-- Digit characters are kept characters. -/
theorem digit_keep {c : Char} (h : isDigitCh c = true) :
    (keepChar c || c == '_') = true := by
  simp only [isDigitCh, Bool.and_eq_true, decide_eq_true_eq] at h
  simp only [keepChar, Bool.or_eq_true, Bool.and_eq_true, decide_eq_true_eq]
  left
  right
  omega

/-- Digit characters are not underscores. -/
theorem digit_ne_under {c : Char} (h : isDigitCh c = true) :
    (c == '_') = false := by
  simp only [isDigitCh, Bool.and_eq_true, decide_eq_true_eq] at h
  cases hx : (c == '_') with
  | false => rfl
  | true =>
    have : c = '_' := by simpa using hx
    rw [this] at h
    revert h
    decide

/-- `digitCh` always yields a digit character. -/
theorem isDigit_digitCh (m : ℕ) : isDigitCh (digitCh m) = true := by
  unfold digitCh
  split_ifs <;> decide

/-- Introduction rule for `normalChars` on a non-empty list. -/
theorem normalChars_intro {c0 : Char} {rest : List Char}
    (hall : ∀ c ∈ c0 :: rest, (keepChar c || c == '_') = true)
    (hh : (c0 == '_') = false) (hd : isDigitCh c0 = false)
    (hlast : ∀ c, (c0 :: rest).getLast? = some c → (c == '_') = false)
    (hadj : noAdjUnders (c0 :: rest) = true) :
    normalChars (c0 :: rest) = true := by
  show ((c0 :: rest).all (fun d => keepChar d || d == '_') &&
    !(c0 == '_') && !isDigitCh c0 &&
    !((c0 :: rest).getLast (List.cons_ne_nil c0 rest) == '_') &&
    noAdjUnders (c0 :: rest)) = true
  simp only [Bool.and_eq_true]
  refine ⟨⟨⟨⟨List.all_eq_true.mpr hall, ?_⟩, ?_⟩, ?_⟩, hadj⟩
  · rw [hh]
    rfl
  · rw [hd]
    rfl
  · rw [hlast ((c0 :: rest).getLast (List.cons_ne_nil c0 rest))
      (List.getLast?_eq_getLast _ (List.cons_ne_nil c0 rest))]
    rfl

/-- The per-name normalization always produces a normalized name. -/
theorem normalizeChars_normal (cs : List Char) :
    normalChars (normalizeChars cs) = true := by
  unfold normalizeChars
  dsimp only
  have hw_chars : ∀ c ∈ trimUnders (collapseUnders
      (subSpecial (stripWS (cs.map pyLowerCh)))),
      (keepChar c || c == '_') = true := fun c hc =>
    subSpecial_chars _ (collapse_mem _ (trim_mem _ hc))
  have hw_noAdj : noAdjUnders (trimUnders (collapseUnders
      (subSpecial (stripWS (cs.map pyLowerCh))))) = true :=
    trim_noAdj (collapse_noAdj _)
  have hw_head : ∀ c, (trimUnders (collapseUnders
      (subSpecial (stripWS (cs.map pyLowerCh))))).head? = some c →
      (c == '_') = false := fun c hc => trim_head hc
  have hw_last : ∀ c, (trimUnders (collapseUnders
      (subSpecial (stripWS (cs.map pyLowerCh))))).getLast? = some c →
      (c == '_') = false := fun c hc => trim_last hc
  cases hwc : trimUnders (collapseUnders
      (subSpecial (stripWS (cs.map pyLowerCh)))) with
  | nil =>
    rw [hwc] at hw_chars hw_noAdj hw_head hw_last
    decide
  | cons c0 rest =>
    rw [hwc] at hw_chars hw_noAdj hw_head hw_last
    by_cases hd : isDigitCh c0 = true
    · have hg : guardDigit (c0 :: rest) =
          'c' :: 'o' :: 'l' :: '_' :: c0 :: rest := by
        show (if isDigitCh c0 then 'c' :: 'o' :: 'l' :: '_' :: c0 :: rest
          else c0 :: rest) = _
        rw [hd]
        rfl
      rw [hg]
      rw [if_neg (by simp)]
      have hlast4 : ∀ c,
          ('c' :: 'o' :: 'l' :: '_' :: c0 :: rest).getLast? = some c →
          (c == '_') = false := by
        intro c hc
        rw [List.getLast?_cons_cons, List.getLast?_cons_cons,
          List.getLast?_cons_cons, List.getLast?_cons_cons] at hc
        exact hw_last c hc
      refine normalChars_intro ?_ (by decide) (by decide) hlast4 ?_
      · intro c hc
        simp only [List.mem_cons] at hc
        rcases hc with rfl | rfl | rfl | rfl | hc
        · decide
        · decide
        · decide
        · decide
        · exact hw_chars c (List.mem_cons.mpr hc)
      · have h1 : noAdjUnders ('_' :: c0 :: rest) = true := by
          refine noAdj_cons hw_noAdj ?_
          intro b hb
          have : c0 = b := by simpa using hb
          rw [← this, digit_ne_under hd]
          simp
        have h2 : noAdjUnders ('l' :: '_' :: c0 :: rest) = true := by
          refine noAdj_cons h1 ?_
          intro b _
          rw [show (('l' : Char) == '_') = false from by decide]
          simp
        have h3 : noAdjUnders ('o' :: 'l' :: '_' :: c0 :: rest) = true := by
          refine noAdj_cons h2 ?_
          intro b _
          rw [show (('o' : Char) == '_') = false from by decide]
          simp
        refine noAdj_cons h3 ?_
        intro b _
        rw [show (('c' : Char) == '_') = false from by decide]
        simp
    · have hg : guardDigit (c0 :: rest) = c0 :: rest := by
        show (if isDigitCh c0 then 'c' :: 'o' :: 'l' :: '_' :: c0 :: rest
          else c0 :: rest) = _
        rw [Bool.not_eq_true] at hd
        rw [hd]
        rfl
      rw [hg]
      rw [if_neg (by simp)]
      exact normalChars_intro hw_chars (hw_head c0 rfl)
        (by rw [Bool.not_eq_true] at hd; exact hd) hw_last hw_noAdj

/-- String-level: every normalized name is in normal form. -/
theorem normalizeName_normal (s : String) :
    isNormalName (normalizeName s) = true := by
  unfold isNormalName normalizeName
  exact normalizeChars_normal s.data

/-- Rendering zero digits consumes no fuel. -/
theorem natDigitsAux_zero : ∀ (fuel : ℕ) (acc : List Char),
    natDigitsAux fuel 0 acc = acc
  | 0, _ => rfl
  | _ + 1, _ => by
    show (if (0 : ℕ) = 0 then _ else _) = _
    rw [if_pos rfl]

/-- The accumulator splits off: any sufficient fuel yields the digits of
`n` followed by the accumulator. -/
theorem natDigitsAux_acc : ∀ (n fuel : ℕ) (acc : List Char), n ≤ fuel →
    natDigitsAux fuel n acc = natDigitsAux n n [] ++ acc := by
  intro n
  induction n using Nat.strong_induction_on with
  | _ n ih =>
    intro fuel acc hle
    cases n with
    | zero =>
      rw [natDigitsAux_zero, natDigitsAux_zero]
      rfl
    | succ m =>
      cases fuel with
      | zero => omega
      | succ f =>
        show (if m + 1 = 0 then acc
          else natDigitsAux f ((m + 1) / 10)
            (digitCh ((m + 1) % 10) :: acc)) = _
        rw [if_neg (Nat.succ_ne_zero m)]
        have hdiv : (m + 1) / 10 < m + 1 :=
          Nat.div_lt_self (Nat.succ_pos m) (by decide)
        rw [ih _ hdiv f _ (by omega)]
        rw [show natDigitsAux (m + 1) (m + 1) [] =
          natDigitsAux m ((m + 1) / 10) (digitCh ((m + 1) % 10) :: []) from by
            show (if m + 1 = 0 then ([] : List Char) else _) = _
            rw [if_neg (Nat.succ_ne_zero m)]]
        rw [ih _ hdiv m _ (by omega)]
        simp

/-- A positive number renders to a non-empty digit list. -/
theorem natDigits_ne_nil {n : ℕ} (h : 1 ≤ n) :
    natDigitsAux n n [] ≠ [] := by
  cases n with
  | zero => omega
  | succ m =>
    show (if m + 1 = 0 then ([] : List Char) else _) ≠ []
    rw [if_neg (Nat.succ_ne_zero m)]
    rw [natDigitsAux_acc _ m _ (by
      have := Nat.div_lt_self (Nat.succ_pos m) (show 1 < 10 from by decide)
      omega)]
    simp

/-- Digit rendering produces only digit characters. -/
theorem natDigitsAux_digits : ∀ (fuel n : ℕ) (acc : List Char),
    (∀ c ∈ acc, isDigitCh c = true) →
    ∀ c ∈ natDigitsAux fuel n acc, isDigitCh c = true
  | 0, _, _, hacc => hacc
  | fuel + 1, n, acc, hacc => by
    show ∀ c ∈ (if n = 0 then acc
      else natDigitsAux fuel (n / 10) (digitCh (n % 10) :: acc)), _
    by_cases hn : n = 0
    · rw [if_pos hn]
      exact hacc
    · rw [if_neg hn]
      refine natDigitsAux_digits fuel (n / 10) _ ?_
      intro c hc
      rcases List.mem_cons.mp hc with rfl | hc'
      · exact isDigit_digitCh _
      · exact hacc c hc'

/-- Counter strings consist of digits only. -/
theorem natStr_digits (n : ℕ) : ∀ c ∈ (natStr n).data, isDigitCh c = true := by
  unfold natStr
  by_cases hn : n = 0
  · rw [if_pos hn]
    decide
  · rw [if_neg hn]
    exact natDigitsAux_digits n n [] (by simp)

/-- Counter strings are non-empty. -/
theorem natStr_data_ne_nil (n : ℕ) : (natStr n).data ≠ [] := by
  unfold natStr
  by_cases hn : n = 0
  · rw [if_pos hn]
    decide
  · rw [if_neg hn]
    exact natDigits_ne_nil (Nat.one_le_iff_ne_zero.mpr hn)

/-- `digitVal` inverts `digitCh` on digit values. -/
theorem digitVal_digitCh {m : ℕ} (h : m < 10) :
    digitVal (digitCh m) = m := by
  interval_cases m <;> decide

/-- Valuation of a digit list with a final digit appended. -/
theorem valD_append (xs : List Char) (d : Char) :
    valD (xs ++ [d]) = 10 * valD xs + digitVal d := by
  unfold valD
  rw [List.foldl_append]
  rfl

/-- The digit rendering of `n` evaluates back to `n`. -/
theorem valD_natDigits : ∀ n : ℕ, valD (natDigitsAux n n []) = n := by
  intro n
  induction n using Nat.strong_induction_on with
  | _ n ih =>
    cases n with
    | zero => rfl
    | succ m =>
      have hdiv : (m + 1) / 10 < m + 1 :=
        Nat.div_lt_self (Nat.succ_pos m) (by decide)
      rw [show natDigitsAux (m + 1) (m + 1) [] =
        natDigitsAux m ((m + 1) / 10) (digitCh ((m + 1) % 10) :: []) from by
          show (if m + 1 = 0 then ([] : List Char) else _) = _
          rw [if_neg (Nat.succ_ne_zero m)]]
      rw [natDigitsAux_acc _ m _ (by omega)]
      rw [show digitCh ((m + 1) % 10) :: ([] : List Char) =
        [digitCh ((m + 1) % 10)] from rfl]
      rw [valD_append, ih _ hdiv, digitVal_digitCh (Nat.mod_lt _ (by decide))]
      omega

/-- Counter rendering is injective on positive counters. -/
theorem natStr_inj {a b : ℕ} (ha : 1 ≤ a) (hb : 1 ≤ b)
    (h : natStr a = natStr b) : a = b := by
  unfold natStr at h
  rw [if_neg (by omega), if_neg (by omega)] at h
  have hd : natDigitsAux a a [] = natDigitsAux b b [] := by
    have := congrArg String.data h
    simpa using this
  have := congrArg valD hd
  rw [valD_natDigits, valD_natDigits] at this
  exact this

/-- The character content of a collision candidate. -/
theorem suffixName_data (base : String) (k : ℕ) :
    (suffixName base k).data = base.data ++ '_' :: (natStr k).data := by
  unfold suffixName
  rw [String.data_append, String.data_append]
  simp

/-- Collision candidates are injective in the counter. -/
theorem suffixName_inj {base : String} {j k : ℕ} (hj : 1 ≤ j) (hk : 1 ≤ k)
    (h : suffixName base j = suffixName base k) : j = k := by
  have hd := congrArg String.data h
  rw [suffixName_data, suffixName_data] at hd
  have h1 : '_' :: (natStr j).data = '_' :: (natStr k).data :=
    List.append_cancel_left hd
  have h2 : (natStr j).data = (natStr k).data := by
    injection h1
  refine natStr_inj hj hk ?_
  cases hj' : natStr j with
  | mk dj =>
    cases hk' : natStr k with
    | mk dk =>
      rw [hj', hk'] at h2
      simp only [] at h2
      rw [h2]

/-- Bool-level append rule for `noAdjUnders`. -/
theorem noAdj_append {xs ys : List Char}
    (hx : noAdjUnders xs = true) (hy : noAdjUnders ys = true)
    (hj : ∀ a b, xs.getLast? = some a → ys.head? = some b →
      (a == '_' && b == '_') = false) :
    noAdjUnders (xs ++ ys) = true := by
  rw [noAdj_iff_chain] at hx hy ⊢
  rw [List.chain'_append]
  refine ⟨hx, hy, ?_⟩
  intro a ha b hb
  have := hj a b ha hb
  rintro ⟨rfl, rfl⟩
  simp at this

/-- Lists without underscores trivially have no adjacent ones. -/
theorem noAdj_of_no_unders : ∀ {l : List Char},
    (∀ c ∈ l, (c == '_') = false) → noAdjUnders l = true
  | [], _ => rfl
  | a :: rest, h => by
    refine noAdj_cons (noAdj_of_no_unders (fun c hc => h c (by simp [hc]))) ?_
    intro b _
    rw [h a (by simp)]
    rfl

/-- A collision candidate built on a normalized base with a positive
counter is itself normalized. -/
theorem suffixName_normal {base : String} {k : ℕ}
    (hb : isNormalName base = true) (hk : 1 ≤ k) :
    isNormalName (suffixName base k) = true := by
  unfold isNormalName at hb ⊢
  rw [suffixName_data]
  cases hbd : base.data with
  | nil => rw [hbd] at hb; simp [normalChars] at hb
  | cons c0 rest =>
    rw [hbd] at hb
    simp only [normalChars, Bool.and_eq_true] at hb
    obtain ⟨⟨⟨⟨hall, hh⟩, hd⟩, hlast⟩, hadj⟩ := hb
    rw [List.all_eq_true] at hall
    show normalChars ((c0 :: rest) ++ '_' :: (natStr k).data) = true
    rw [show (c0 :: rest) ++ '_' :: (natStr k).data =
      c0 :: (rest ++ '_' :: (natStr k).data) from by simp]
    apply normalChars_intro
    · intro c hc
      rcases List.mem_cons.mp hc with rfl | hc'
      · exact hall c (by simp)
      · rcases List.mem_append.mp hc' with hc2 | hc2
        · exact hall c (by simp [hc2])
        · rcases List.mem_cons.mp hc2 with rfl | hc3
          · decide
          · exact digit_keep (natStr_digits k c hc3)
    · cases hx : (c0 == '_') with
      | false => rfl
      | true => rw [hx] at hh; simp at hh
    · cases hx : isDigitCh c0 with
      | false => rfl
      | true => rw [hx] at hd; simp at hd
    · intro c hc
      rw [show c0 :: (rest ++ '_' :: (natStr k).data) =
        (c0 :: rest) ++ '_' :: (natStr k).data from by simp] at hc
      rw [List.getLast?_append] at hc
      cases hds : (natStr k).data with
      | nil => exact absurd hds (natStr_data_ne_nil k)
      | cons d0 ds =>
        rw [hds] at hc
        rw [List.getLast?_cons_cons] at hc
        rw [List.getLast?_eq_getLast (d0 :: ds) (List.cons_ne_nil d0 ds)]
          at hc
        have hce : some ((d0 :: ds).getLast (List.cons_ne_nil d0 ds)) =
            some c := hc
        have hcl : (d0 :: ds).getLast (List.cons_ne_nil d0 ds) = c := by
          injection hce
        have hcm : c ∈ d0 :: ds := by
          rw [← hcl]
          exact List.getLast_mem (List.cons_ne_nil d0 ds)
        have : isDigitCh c = true := by
          rw [← hds] at hcm
          exact natStr_digits k c hcm
        exact digit_ne_under this
    · rw [show c0 :: (rest ++ '_' :: (natStr k).data) =
        (c0 :: rest) ++ '_' :: (natStr k).data from by simp]
      refine noAdj_append hadj ?_ ?_
      · cases hds : (natStr k).data with
        | nil => exact absurd hds (natStr_data_ne_nil k)
        | cons d0 ds =>
          refine noAdj_cons ?_ ?_
          · apply noAdj_of_no_unders
            intro c hc
            refine digit_ne_under (natStr_digits k c ?_)
            rw [hds]
            simp [hc]
          · intro b hb2
            have hb0 : d0 = b := by simpa using hb2
            have : isDigitCh b = true := by
              rw [← hb0]
              refine natStr_digits k d0 ?_
              rw [hds]
              simp
            rw [digit_ne_under this]
            simp
      · intro a b ha hb2
        have hgl : a = (c0 :: rest).getLast (List.cons_ne_nil c0 rest) := by
          rw [List.getLast?_eq_getLast _ (List.cons_ne_nil c0 rest)] at ha
          simpa using ha.symm
        have hau : (a == '_') = false := by
          rw [hgl]
          cases hx : ((c0 :: rest).getLast (List.cons_ne_nil c0 rest) == '_')
            with
          | false => rfl
          | true => rw [hx] at hlast; simp at hlast
        rw [hau]
        rfl

/-- `List.contains` answers `false` exactly on non-members. -/
theorem contains_false_iff {l : List String} {x : String} :
    l.contains x = false ↔ x ∉ l := by
  constructor
  · intro h hm
    have h1 : l.elem x = true := List.elem_iff.mpr hm
    have h2 : l.contains x = true := h1
    rw [h] at h2
    exact Bool.false_ne_true h2
  · intro h
    cases hc : l.contains x with
    | false => rfl
    | true => exact absurd (List.elem_iff.mp hc) h

/-- The counter map into collision candidates is injective. -/
theorem suffix_inj_fn (base : String) :
    Function.Injective (fun i : ℕ => suffixName base (i + 1)) := by
  intro i j h
  have h2 := suffixName_inj (Nat.le_add_left 1 i) (Nat.le_add_left 1 j) h
  omega

/-- The counter the while loop settles on is at least one. -/
theorem freshCounter_pos (seen : List String) (base : String) :
    1 ≤ freshCounter seen base := by
  unfold freshCounter
  cases (List.range (seen.length + 1)).find?
      (fun i => !seen.contains (suffixName base (i + 1))) with
  | none => exact Nat.le_add_left 1 (seen.length + 1)
  | some i => exact Nat.le_add_left 1 i

/-- The candidate the while loop settles on is not in `seen`: among the
`seen.length + 1` candidates with counters `1 .. seen.length + 1`, all
pairwise distinct, at least one avoids `seen`, so the search succeeds
and returns a fresh one. -/
theorem freshCounter_fresh (seen : List String) (base : String) :
    seen.contains (suffixName base (freshCounter seen base)) = false := by
  unfold freshCounter
  cases hf : (List.range (seen.length + 1)).find?
      (fun i => !seen.contains (suffixName base (i + 1))) with
  | some i =>
    have hp := List.find?_some hf
    simpa using hp
  | none =>
    exfalso
    have hall := List.find?_eq_none.mp hf
    have hmem : ∀ i ∈ List.range (seen.length + 1),
        suffixName base (i + 1) ∈ seen := by
      intro i hi
      have h2 := hall i hi
      simpa using h2
    have hnodup : ((List.range (seen.length + 1)).map
        (fun i => suffixName base (i + 1))).Nodup :=
      (List.nodup_range (seen.length + 1)).map (suffix_inj_fn base)
    have hsub : ((List.range (seen.length + 1)).map
        (fun i => suffixName base (i + 1))) ⊆ seen := by
      intro x hx
      rcases List.mem_map.mp hx with ⟨i, hi, rfl⟩
      exact hmem i hi
    have hlen := (hnodup.subperm hsub).length_le
    rw [List.length_map, List.length_range] at hlen
    omega

/-- The de-duplicated name is never already in `seen`. -/
theorem dedupName_not_mem (seen : List String) (base : String) :
    seen.contains (dedupName seen base) = false := by
  rw [contains_false_iff]
  unfold dedupName
  by_cases h : base ∈ seen
  · simp only [List.elem_iff.mpr h, if_true]
    exact contains_false_iff.mp (freshCounter_fresh seen base)
  · have hc : seen.contains base = false := contains_false_iff.mpr h
    rw [hc]
    simpa using h

/-- De-duplication preserves normal form. -/
theorem dedupName_normal {base : String} (seen : List String)
    (hb : isNormalName base = true) :
    isNormalName (dedupName seen base) = true := by
  unfold dedupName
  by_cases h : base ∈ seen
  · simp only [List.elem_iff.mpr h, if_true]
    exact suffixName_normal hb (freshCounter_pos seen base)
  · have hc : seen.contains base = false := contains_false_iff.mpr h
    rw [hc]
    simpa using hb

/-- An unseen name passes through de-duplication unchanged. -/
theorem dedupName_id {seen : List String} {base : String}
    (h : seen.contains base = false) : dedupName seen base = base := by
  unfold dedupName
  rw [h]
  simp

/-- Non-membership is preserved by appending a different element. -/
theorem contains_append_one {seen : List String} {c d : String}
    (h1 : seen.contains d = false) (h2 : ¬ d = c) :
    (seen ++ [c]).contains d = false := by
  rw [contains_false_iff] at h1 ⊢
  intro hm
  rcases List.mem_append.mp hm with hm | hm
  · exact h1 hm
  · exact h2 (by simpa using hm)

/-- On already-seen-free, already-normal columns the loop is the
identity: every name passes through unchanged and no log is emitted. -/
theorem normFold_id (cols : List String) :
    ∀ (seen news : List String) (logs : List LogEntry),
    (∀ c ∈ cols, isNormalName c = true) →
    (∀ c ∈ cols, seen.contains c = false) →
    cols.Nodup →
    cols.foldl normStep (seen, news, logs) =
      (seen ++ cols, news ++ cols, logs) := by
  induction cols with
  | nil =>
    intro seen news logs _ _ _
    simp
  | cons c cs ih =>
    intro seen news logs hnorm hseen hnodup
    rw [List.foldl_cons]
    have hbase : normalizeName c = c := normalizeName_id (hnorm c (by simp))
    have hcs : seen.contains c = false := hseen c (by simp)
    have hname : dedupName seen (normalizeName c) = c := by
      rw [hbase]
      exact dedupName_id hcs
    have hstep : normStep (seen, news, logs) c =
        (seen ++ [c], news ++ [c], logs) := by
      show (seen ++ [dedupName seen (normalizeName c)],
            news ++ [dedupName seen (normalizeName c)],
            if c ≠ dedupName seen (normalizeName c) then
              logs ++ [⟨"ColumnNormalizer", "rename_column", c, "info"⟩]
            else logs) = (seen ++ [c], news ++ [c], logs)
      rw [hname]
      simp
    rw [hstep]
    rw [ih (seen ++ [c]) (news ++ [c]) logs
      (fun d hd => hnorm d (by simp [hd]))
      (fun d hd => contains_append_one (hseen d (by simp [hd]))
        (fun he => (List.nodup_cons.mp hnodup).1 (he ▸ hd)))
      (List.nodup_cons.mp hnodup).2]
    simp

/-- Invariant of the loop: the seen set equals the produced names,
which stay pairwise distinct and normal. -/
theorem normFold_inv (cols : List String) :
    ∀ (news : List String) (logs : List LogEntry),
    news.Nodup → (∀ n ∈ news, isNormalName n = true) →
    (cols.foldl normStep (news, news, logs)).1 =
      (cols.foldl normStep (news, news, logs)).2.1 ∧
    (cols.foldl normStep (news, news, logs)).2.1.Nodup ∧
    ∀ n ∈ (cols.foldl normStep (news, news, logs)).2.1,
      isNormalName n = true := by
  induction cols with
  | nil =>
    intro news logs h1 h2
    exact ⟨rfl, h1, h2⟩
  | cons c cs ih =>
    intro news logs h1 h2
    rw [List.foldl_cons]
    have hnorm := dedupName_normal news (normalizeName_normal c)
    have hnm : dedupName news (normalizeName c) ∉ news :=
      contains_false_iff.mp (dedupName_not_mem news (normalizeName c))
    have hstep : normStep (news, news, logs) c =
        (news ++ [dedupName news (normalizeName c)],
         news ++ [dedupName news (normalizeName c)],
         if c ≠ dedupName news (normalizeName c) then
           logs ++ [⟨"ColumnNormalizer", "rename_column", c, "info"⟩]
         else logs) := rfl
    rw [hstep]
    refine ih (news ++ [dedupName news (normalizeName c)]) _ ?_ ?_
    · rw [List.nodup_append]
      refine ⟨h1, List.nodup_singleton _, ?_⟩
      intro a ha hb
      have he : a = dedupName news (normalizeName c) := by simpa using hb
      rw [he] at ha
      exact hnm ha
    · intro n hn
      rcases List.mem_append.mp hn with hn | hn
      · exact h2 n hn
      · have he : n = dedupName news (normalizeName c) := by simpa using hn
        rw [he]
        exact hnorm

/-- The loop emits exactly one name per column. -/
theorem normFold_len (cols : List String) :
    ∀ (acc : List String × List String × List LogEntry),
    (cols.foldl normStep acc).2.1.length = acc.2.1.length + cols.length := by
  induction cols with
  | nil =>
    intro acc
    simp
  | cons c cs ih =>
    intro acc
    rw [List.foldl_cons, ih (normStep acc c)]
    show (acc.2.1 ++ [dedupName acc.1 (normalizeName c)]).length + cs.length =
      acc.2.1.length + (c :: cs).length
    rw [List.length_append]
    simp
    omega

/-- Prepending a pair with a different key does not change a lookup:
the reversed search inspects that pair last and rejects it. -/
theorem dictGet_cons_ne {c k n : String} {pairs : List (String × String)}
    (h : ¬ c = k) : dictGet ((c, n) :: pairs) k = dictGet pairs k := by
  unfold dictGet
  rw [List.reverse_cons, List.find?_append]
  have h1 : [((c, n) : String × String)].find? (fun p => p.1 == k) = none := by
    rw [List.find?_eq_none]
    intro p hp
    have he : p = (c, n) := by simpa using hp
    rw [he]
    simp [h]
  rw [h1, Option.or_none]

/-- Looking up a key absent from the tail finds the head pair. -/
theorem dictGet_cons_self {k n : String} {pairs : List (String × String)}
    (h : ∀ p ∈ pairs, ¬ p.1 = k) : dictGet ((k, n) :: pairs) k = n := by
  unfold dictGet
  rw [List.reverse_cons, List.find?_append]
  have h1 : pairs.reverse.find? (fun p => p.1 == k) = none := by
    rw [List.find?_eq_none]
    intro p hp hbeq
    exact h p (List.mem_reverse.mp hp) (by simpa using hbeq)
  have h2 : [((k, n) : String × String)].find? (fun p => p.1 == k) =
      some (k, n) := by
    simp
  rw [h1, h2]
  rfl

/-- Renaming through `dict(zip(old, new))` sends each old name to the
matching new one, provided the old names are pairwise distinct. -/
theorem dictGet_zip : ∀ {cols news : List String}, cols.Nodup →
    cols.length = news.length →
    cols.map (dictGet (cols.zip news)) = news
  | [], [], _, _ => rfl
  | [], _ :: _, _, h => by simp at h
  | _ :: _, [], _, h => by simp at h
  | c :: cs, n :: ns, hnodup, hlen => by
    rw [List.zip_cons_cons, List.map_cons]
    have hhd : dictGet ((c, n) :: cs.zip ns) c = n := by
      refine dictGet_cons_self ?_
      intro p hp hpc
      obtain ⟨p1, p2⟩ := p
      have h1 := (List.of_mem_zip hp).1
      simp only [] at hpc
      rw [hpc] at h1
      exact (List.nodup_cons.mp hnodup).1 h1
    have htl : cs.map (dictGet ((c, n) :: cs.zip ns)) =
        cs.map (dictGet (cs.zip ns)) := by
      refine List.map_congr_left ?_
      intro x hx
      refine dictGet_cons_ne ?_
      intro he
      exact (List.nodup_cons.mp hnodup).1 (he ▸ hx)
    rw [hhd, htl,
      dictGet_zip (List.nodup_cons.mp hnodup).2 (by simpa using hlen)]

/-- On a table whose column names are pairwise distinct and already in
the produced normal form, the whole step is the identity with no logs. -/
theorem normalizerRun_id {cols : List String} (hnodup : cols.Nodup)
    (hnorm : ∀ c ∈ cols, isNormalName c = true) :
    normalizerRun cols = (cols, []) := by
  have hfold := normFold_id cols [] [] [] hnorm (fun c _ => rfl) hnodup
  show (cols.map (dictGet (cols.zip (cols.foldl normStep ([], [], [])).2.1)),
        (cols.foldl normStep ([], [], [])).2.2) = (cols, [])
  rw [hfold]
  show (cols.map (dictGet (cols.zip ([] ++ cols))), ([] : List LogEntry)) =
    (cols, [])
  rw [List.nil_append, dictGet_zip hnodup rfl]

/-- For a table with pairwise-distinct column names, the output names
are exactly the loop's fresh names: pairwise distinct and normal. -/
theorem normalizerRun_output {cols : List String} (hnodup : cols.Nodup) :
    (normalizerRun cols).1.Nodup ∧
    ∀ n ∈ (normalizerRun cols).1, isNormalName n = true := by
  have hinv := normFold_inv cols [] [] List.nodup_nil
    (fun n hn => absurd hn (List.not_mem_nil n))
  have hlen := normFold_len cols ([], [], [])
  have hmap : (normalizerRun cols).1 =
      (cols.foldl normStep ([], [], [])).2.1 := by
    show cols.map (dictGet (cols.zip (cols.foldl normStep ([], [], [])).2.1)) =
      (cols.foldl normStep ([], [], [])).2.1
    refine dictGet_zip hnodup ?_
    rw [hlen]
    show cols.length = ([] : List String).length + cols.length
    simp
  rw [hmap]
  exact ⟨hinv.2.1, hinv.2.2⟩

/-! ### C9 — Normalizer idempotence -/

/-- C9 counterexample: the claim's notion of "normalized form"
(lowercase `[a-z0-9_]`, not digit-leading, unique) is not preserved by
the step: `_a` satisfies it yet is renamed to `a` with a rename log.
And running twice is not the same as running once on every table: on
two columns both labelled `A` the first run produces `a_1, a_1` and the
second run renames both to `a_1_1`. -/
theorem c9_claimed_normal_form_not_fixed :
    claimNormalForm "_a" = true ∧
    (normalizerRun ["_a"]).1 = ["a"] ∧
    (normalizerRun ["_a"]).2.length = 1 ∧
    (normalizerRun (normalizerRun ["A", "A"]).1).1 ≠
      (normalizerRun ["A", "A"]).1 := by
  refine ⟨by decide, by decide, by decide, ?_⟩
  intro h
  rw [show (normalizerRun (normalizerRun ["A", "A"]).1).1 =
      ["a_1_1", "a_1_1"] from by decide,
    show (normalizerRun ["A", "A"]).1 = ["a_1", "a_1"] from by decide] at h
  simp at h

/-- C9 (corrected): for a table with pairwise-distinct column names, if
every name is already in the normal form the step actually produces
(lowercase `[a-z0-9_]`, not digit-leading, and additionally no leading
or trailing underscore and no underscore runs) then the run changes
nothing and emits no log; and on any table with pairwise-distinct
column names, running the normalizer twice gives the same column names
as running it once, the second run being a silent identity. -/
theorem c9_normalizer_idempotent (cols : List String)
    (hnodup : cols.Nodup) :
    ((∀ c ∈ cols, isNormalName c = true) → normalizerRun cols = (cols, [])) ∧
    normalizerRun (normalizerRun cols).1 = ((normalizerRun cols).1, []) := by
  refine ⟨fun hnorm => normalizerRun_id hnodup hnorm, ?_⟩
  obtain ⟨h1, h2⟩ := normalizerRun_output hnodup
  exact normalizerRun_id h1 h2

/-- C9 witness: a concrete two-column table with distinct, already
normalized names passes through unchanged, and a second run is the
identity as well. -/
theorem c9_normalizer_idempotent_witness :
    (["user_id", "amount"] : List String).Nodup ∧
    normalizerRun ["user_id", "amount"] = (["user_id", "amount"], []) ∧
    normalizerRun (normalizerRun ["user_id", "amount"]).1 =
      ((normalizerRun ["user_id", "amount"]).1, []) :=
  ⟨by decide,
   (c9_normalizer_idempotent ["user_id", "amount"] (by decide)).1 (by decide),
   (c9_normalizer_idempotent ["user_id", "amount"] (by decide)).2⟩
